import Mathlib

/-!
# Verification of the basic-block / SSA construction pass (`p_gen_bb.py`)

This file gives a shallow embedding, in Lean 4, of the control-flow lowering
and SSA construction pipeline of `metalibm_core/opt/p_gen_bb.py`:

* the basic-block model and the `add_to_bb` append guard,
* the CFG lowering of `ConditionBlock` nodes (`transform_cb_to_bb` and the
  surrounding `execute_on_optree` dispatch of `Pass_GenerateBasicBlock`),
* the iterative dominator-set fixpoint (`build_dominator_map`),
* the dominance-frontier walk (`get_dominance_frontiers`,
  `does_not_strictly_dominate`),
* worklist phi-node placement (`phi_node_insertion`),
* the renaming helpers (`update_used_var`, `updating_reaching_def`),
* node-to-block assignment (`sort_node_by_bb`, `copy_up_to_variables`).

Blocks are identified by natural numbers (allocation indices).  Python `dict`
/ `set` state is embedded as association lists, `Finset`s and finitely
supported functions; the Python `while` loops, whose termination is not
structural, take an explicit fuel argument and return `Option` (`none` for
divergence / a raised `KeyError`).  The classes `BasicBlock`,
`BasicBlockList` and the node base classes live in
`metalibm_core/core/bb_operations.py` / `ml_operations.py`, which are not
part of the sources under verification; their few methods used here
(`add`, `push`, `empty`, `final`) are modelled from the spec and marked as
such in their doc comments.
-/

/-- Basic blocks are identified by their allocation index. -/
abbrev Block := Nat

/-- Instructions as far as the control-flow pass observes them: a generic
non-control node (identified by a payload number), the three terminator kinds
(`UnconditionalBranch`, `ConditionalBranch`, `Return`).  Branch targets are
block identifiers; conditions and return values are payload numbers. -/
inductive Insn where
  | plain (n : Nat)
  | uncondBranch (target : Block)
  | condBranch (cond : Nat) (trueTarget falseTarget : Block)
  | ret (n : Nat)
deriving DecidableEq, Repr

/-- `isinstance(node, ControlFlowOperation)`.  The branch classes of
`bb_operations.py` derive from `ControlFlowOperation`.  Modelled from the
spec: the spec lists `UnconditionalBranch`, `ConditionalBranch` and `Return`
as the terminator kinds, so all three count as control-flow operations. -/
def isCFO : Insn → Bool
  | .plain _ => false
  | .uncondBranch _ => true
  | .condBranch _ _ _ => true
  | .ret _ => true

/-- The data of one `BasicBlock` object: its ordered instruction list and its
`final` flag.  Modelled from the spec: "an ordered, mutable sequence of IR
instruction nodes" with "a `final` flag". -/
structure BBData where
  insns : List Insn
  final : Bool
deriving DecidableEq, Repr

/-- `bb.empty` (modelled from the spec: a block is empty when its instruction
sequence is). -/
def BBData.empty (d : BBData) : Bool := d.insns.isEmpty

/-- `BasicBlock.add`: append one instruction at the end of the block.
Modelled from the spec: blocks are "appended to incrementally". -/
def BBData.add (d : BBData) (n : Insn) : BBData := { d with insns := d.insns ++ [n] }

/-- Whether the last instruction of a list is a `ControlFlowOperation`
(`isinstance(bb.get_input(-1), ControlFlowOperation)`); `false` on the empty
list, which the caller guards against. -/
def lastIsCFO (l : List Insn) : Bool :=
  match l.getLast? with
  | none => false
  | some i => isCFO i

/-- `Pass_GenerateBasicBlock.add_to_bb` (p_gen_bb.py:697-699), acting on the
data of the chosen block:

    if not bb.final and (bb.empty or not isinstance(bb.get_input(-1), ControlFlowOperation)):
        bb.add(node)
-/
def add_to_bb_data (d : BBData) (n : Insn) : BBData :=
  if !d.final && (d.empty || !lastIsCFO d.insns) then d.add n else d

/-- C8: `add_to_bb` appends `n` iff the block is not `final` and (is empty or
its last instruction is not a `ControlFlowOperation`); appending to a `final`
block is a no-op leaving the block entirely unchanged. -/
theorem add_to_bb_appends_iff (d : BBData) (n : Insn) :
    ((add_to_bb_data d n).insns = d.insns ++ [n] ↔
      (d.final = false ∧ (d.insns = [] ∨ lastIsCFO d.insns = false))) ∧
    (d.final = true → add_to_bb_data d n = d) := by
  constructor
  · constructor
    · intro h
      by_cases hf : d.final
      · exfalso
        simp [add_to_bb_data, hf] at h
      · refine ⟨by simpa using hf, ?_⟩
        by_cases he : d.insns = []
        · exact Or.inl he
        · right
          by_cases hc : lastIsCFO d.insns
          · exfalso
            simp [add_to_bb_data, hf, BBData.empty, he, hc] at h
          · simpa using hc
    · rintro ⟨hf, hrest⟩
      rcases hrest with he | hc
      · simp [add_to_bb_data, hf, BBData.empty, he, BBData.add]
      · simp [add_to_bb_data, hf, BBData.empty, hc, BBData.add]
  · intro hf
    simp [add_to_bb_data, hf]

/-! ## CFG lowering (`Pass_GenerateBasicBlock`) -/

/-- The mutable state of `Pass_GenerateBasicBlock`: the store of all allocated
`BasicBlock` objects (`store i` is the data of the block allocated `i`-th,
`slen` the number of allocations so far), the contents of `top_bb_list`
(block ids in the order they were added) and `current_bb_stack` (head of the
list is the top of the Python stack, i.e. `current_bb_stack[-1]`). -/
structure GenState where
  store : Block → BBData
  slen : Nat
  bbList : List Block
  stack : List Block

/-- `get_current_bb` (p_gen_bb.py:721-722): the topmost stack entry; `none`
models the `IndexError` raised on an empty stack. -/
def getCurrentBB (s : GenState) : Option Block := s.stack.head?

/-- `push_new_bb` (p_gen_bb.py:684-695): allocate a fresh empty, non-final
block and push it on the stack (it is *not* added to `top_bb_list`). -/
def pushNewBB (s : GenState) : GenState × Block :=
  ({ s with
      store := Function.update s.store s.slen ⟨[], false⟩,
      slen := s.slen + 1,
      stack := s.slen :: s.stack }, s.slen)

/-- `add_to_bb` (p_gen_bb.py:697-699) acting on the stateful block store. -/
def add_to_bb (s : GenState) (b : Block) (n : Insn) : GenState :=
  { s with store := Function.update s.store b (add_to_bb_data (s.store b) n) }

/-- `pop_current_bb` (p_gen_bb.py:701-713): if the stack is non-empty and the
top block is non-empty or `force_add` holds, pop it, append it to
`top_bb_list` and return it; otherwise leave the state unchanged and return
`None`. -/
def popCurrentBB (s : GenState) (forceAdd : Bool) : GenState × Option Block :=
  match s.stack with
  | [] => (s, none)
  | top :: rest =>
      if !(s.store top).empty || forceAdd then
        ({ s with stack := rest, bbList := s.bbList ++ [top] }, some top)
      else
        (s, none)

/-- `BasicBlock.push` as used by `push_to_current_bb`.  Modelled from the
spec: §4.1 lowers sequential code by "appending non-control nodes directly to
the current block", so the node goes at the end of the instruction list. -/
def BBData.pushInsn (d : BBData) (n : Insn) : BBData := { d with insns := d.insns ++ [n] }

/-- `push_to_current_bb` (p_gen_bb.py:668-672); `none` models the failed
`assert len(self.current_bb_stack) > 0`. -/
def pushToCurrentBB (s : GenState) (n : Insn) : Option GenState :=
  match s.stack with
  | [] => none
  | top :: _ =>
      some { s with store := Function.update s.store top ((s.store top).pushInsn n) }

/-- Mark the current block `final` (`self.get_current_bb().final = True`,
p_gen_bb.py:736). -/
def setCurrentFinal (s : GenState) : Option GenState :=
  match s.stack with
  | [] => none
  | top :: _ =>
      some { s with store := Function.update s.store top { s.store top with final := true } }

/-- The structured IR trees handled by `execute_on_optree`, restricted to the
node kinds the claims under study exercise: `Statement`, `ConditionBlock`
(with optional else branch), `Return`, and generic non-control leaf nodes. -/
inductive OpTree where
  | plain (n : Nat)
  | ret (n : Nat)
  | stmt (ops : List OpTree)
  | cond (c : Nat) (ifBr : OpTree) (elseBr : Option OpTree)

mutual

/-- `Pass_GenerateBasicBlock.execute_on_optree` (p_gen_bb.py:724-743),
returning the updated state together with the entry block of the translated
construct. -/
def execute_on_optree : OpTree → GenState → Option (GenState × Block)
  | t, s => do
    let entry ← getCurrentBB s
    match t with
    | .cond c ifBr elseBr => transform_cb_to_bb c ifBr elseBr s
    | .ret n => do
        let s1 ← pushToCurrentBB s (.ret n)
        let s2 ← setCurrentFinal s1
        return (s2, entry)
    | .stmt ops => do
        let s1 ← execute_on_optree_list ops s
        return (s1, entry)
    | .plain n => do
        let s1 ← pushToCurrentBB s (.plain n)
        return (s1, entry)
termination_by t s => sizeOf t

/-- The `Statement` branch of `execute_on_optree`: process the children in
order (their entry blocks are ignored). -/
def execute_on_optree_list : List OpTree → GenState → Option GenState
  | [], s => some s
  | t :: ts, s => do
    let (s1, _) ← execute_on_optree t s
    execute_on_optree_list ts s1
termination_by ts s => sizeOf ts

/-- `transform_cb_to_bb` (p_gen_bb.py:48-116). -/
def transform_cb_to_bb (c : Nat) (ifBr : OpTree) (elseBr : Option OpTree) (s0 : GenState) :
    Option (GenState × Block) := do
  let entry ← getCurrentBB s0
  let s1 := (popCurrentBB s0 true).1
  let (s2, ifEntry) := pushNewBB s1
  let (s3, _) ← execute_on_optree ifBr s2
  let (s4, ifEndOpt) := popCurrentBB s3 true
  let ifEnd ← ifEndOpt
  match elseBr with
  | some eb => do
      let (s5, elseEntry) := pushNewBB s4
      let (s6, _) ← execute_on_optree eb s5
      let (s7, elseEndOpt) := popCurrentBB s6 true
      let elseEnd ← elseEndOpt
      let (s8, nextBb) := pushNewBB s7
      let s9 := add_to_bb s8 elseEnd (.uncondBranch nextBb)
      let nb ← getCurrentBB s9
      let s10 := add_to_bb s9 entry (.condBranch c ifEntry elseEntry)
      let s11 := add_to_bb s10 ifEnd (.uncondBranch nb)
      return (s11, entry)
  | none => do
      let (s5, elseEntry) := pushNewBB s4
      let nb ← getCurrentBB s5
      let s6 := add_to_bb s5 entry (.condBranch c ifEntry elseEntry)
      let s7 := add_to_bb s6 ifEnd (.uncondBranch nb)
      return (s7, entry)
termination_by sizeOf ifBr + sizeOf elseBr
decreasing_by
  all_goals simp_wf
  all_goals first
    | omega
    | (cases elseBr <;> simp <;> omega)
    | (simp <;> omega)

end

/-! ## Straight-line lowering and the `ConditionBlock` translation contract -/

/-- Structured trees with no control construct: `Statement` nests and plain
leaf nodes only. -/
inductive Straight : OpTree → Prop
  | plain (n : Nat) : Straight (.plain n)
  | stmt (ops : List OpTree) : (∀ t ∈ ops, Straight t) → Straight (.stmt ops)

mutual

/-- The instruction sequence a control-free tree contributes to the current
block. -/
def flat : OpTree → List Insn
  | .plain n => [.plain n]
  | .ret n => [.ret n]
  | .cond _ _ _ => []
  | .stmt ops => flatList ops
termination_by t => sizeOf t

/-- `flat` over a `Statement`'s children. -/
def flatList : List OpTree → List Insn
  | [] => []
  | t :: ts => flat t ++ flatList ts
termination_by ts => sizeOf ts

end

/-- Append a list of instructions to a block's data. -/
def BBData.pushList (d : BBData) (l : List Insn) : BBData := { d with insns := d.insns ++ l }

/-- Append a list of instructions to block `b` of the state. -/
def updState (s : GenState) (b : Block) (l : List Insn) : GenState :=
  { s with store := Function.update s.store b ((s.store b).pushList l) }

theorem updState_nil (s : GenState) (b : Block) : updState s b [] = s := by
  simp [updState, BBData.pushList]

theorem updState_updState (s : GenState) (b : Block) (l1 l2 : List Insn) :
    updState (updState s b l1) b l2 = updState s b (l1 ++ l2) := by
  simp [updState, BBData.pushList, Function.update_idem]

/-- Behaviour of `execute_on_optree` on one control-free tree: the flattened
instructions are appended to the current block, nothing else changes, and the
current block is returned as entry. -/
def ExecStraightP (t : OpTree) : Prop :=
  ∀ s top rest, s.stack = top :: rest →
    execute_on_optree t s = some (updState s top (flat t), top)

theorem exec_straight_list (ops : List OpTree) (h : ∀ t ∈ ops, ExecStraightP t) :
    ∀ s top rest, s.stack = top :: rest →
      execute_on_optree_list ops s = some (updState s top (flatList ops)) := by
  induction ops with
  | nil =>
      intro s top rest hs
      simp [execute_on_optree_list, flatList, updState_nil]
  | cons t ts ih =>
      intro s top rest hs
      have ht := h t (by simp)
      have h1 := ht s top rest hs
      have hs1 : (updState s top (flat t)).stack = top :: rest := by
        simpa [updState] using hs
      have h2 := ih (fun u hu => h u (by simp [hu])) (updState s top (flat t)) top rest hs1
      simp [execute_on_optree_list, h1, h2, flatList, updState_updState]

theorem exec_straight (t : OpTree) (h : Straight t) : ExecStraightP t := by
  induction h with
  | plain n =>
      intro s top rest hs
      simp [execute_on_optree, getCurrentBB, hs, pushToCurrentBB, flat, updState,
        BBData.pushList, BBData.pushInsn]
  | stmt ops hops ih =>
      intro s top rest hs
      have hl := exec_straight_list ops ih s top rest hs
      simp [execute_on_optree, getCurrentBB, hs, hl, flat]

theorem straight_flat_no_cfo (t : OpTree) (h : Straight t) :
    ∀ i ∈ flat t, isCFO i = false := by
  induction h with
  | plain n => intro i hi; simp [flat] at hi; simp [hi, isCFO]
  | stmt ops hops ih =>
      intro i hi
      simp only [flat] at hi
      clear hops
      induction ops with
      | nil => simp [flatList] at hi
      | cons t ts iht =>
          simp only [flatList, List.mem_append] at hi
          rcases hi with hi | hi
          · exact ih t (by simp) i hi
          · exact iht (fun u hu => ih u (by simp [hu])) hi

theorem lastIsCFO_false_of_all (l : List Insn) (h : ∀ i ∈ l, isCFO i = false) :
    lastIsCFO l = false := by
  unfold lastIsCFO
  cases hl : l.getLast? with
  | none => rfl
  | some i =>
      obtain ⟨hne, hi⟩ := List.mem_getLast?_eq_getLast (l := l) (x := i) (by simp [hl])
      exact hi ▸ h _ (List.getLast_mem hne)

/-- `add_to_bb` on a non-final, not-yet-terminated block really appends. -/
theorem add_to_bb_data_appends (d : BBData) (n : Insn) (hfin : d.final = false)
    (hopen : d.insns = [] ∨ lastIsCFO d.insns = false) :
    add_to_bb_data d n = d.add n := by
  rcases hopen with he | hc
  · simp [add_to_bb_data, hfin, BBData.empty, he]
  · simp [add_to_bb_data, hfin, BBData.empty, hc]

/-- Join block id allocated by `transform_cb_to_bb` relative to the allocation
counter `N` at entry: with an else branch the join is a third fresh block
(`N+2`); without one the else-entry block itself (`N+1`) serves as join. -/
def joinOf (elseBr : Option OpTree) (N : Nat) : Nat :=
  match elseBr with
  | some _ => N + 2
  | none => N + 1

set_option maxHeartbeats 4000000 in
/-- C6 (amended): for a `ConditionBlock` whose branch bodies are control-free
(so no branch body ends in `Return` and blocks stay open), lowering attaches
`ConditionalBranch(cond, if_entry, else_entry)` at the end of the block that
was current on entry, attaches `UnconditionalBranch(join)` at the end of the
if-branch block and (when present) of the else-branch block — these appends
are `add_to_bb` calls and are no-ops on a `final` or already-terminated
block, which is why the control-free restriction is needed — with the
else-entry being the join block itself when the else branch is absent, and
returns the original entry block as the construct's result. -/
theorem transform_cb_contract
    (c : Nat) (ifBr : OpTree) (elseBr : Option OpTree) (s : GenState) (e : Nat)
    (rest : List Nat)
    (hstack : s.stack = e :: rest)
    (he : e < s.slen)
    (hfin : (s.store e).final = false)
    (hopen : (s.store e).insns = [] ∨ lastIsCFO (s.store e).insns = false)
    (hif : Straight ifBr)
    (helse : ∀ eb, elseBr = some eb → Straight eb) :
    (execute_on_optree (.cond c ifBr elseBr) s).map (fun p => p.2) = some e ∧
    (execute_on_optree (.cond c ifBr elseBr) s).map (fun p => (p.1.store e).insns) =
      some ((s.store e).insns ++ [.condBranch c s.slen (s.slen+1)]) ∧
    (execute_on_optree (.cond c ifBr elseBr) s).map (fun p => (p.1.store s.slen).insns) =
      some (flat ifBr ++ [.uncondBranch (joinOf elseBr s.slen)]) ∧
    (∀ eb, elseBr = some eb →
      (execute_on_optree (.cond c ifBr elseBr) s).map
          (fun p => (p.1.store (s.slen+1)).insns) =
        some (flat eb ++ [.uncondBranch (s.slen+2)])) ∧
    (elseBr = none → joinOf elseBr s.slen = s.slen + 1) := by
  have hne : e ≠ s.slen := Nat.ne_of_lt he
  have hne1 : e ≠ s.slen + 1 := by omega
  have hne2 : e ≠ s.slen + 2 := by omega
  have hsne : s.slen ≠ e := Ne.symm hne
  have hs1e : s.slen + 1 ≠ e := Ne.symm hne1
  have hn01 : s.slen ≠ s.slen + 1 := by omega
  have hn02 : s.slen ≠ s.slen + 2 := by omega
  have hn12 : s.slen + 1 ≠ s.slen + 2 := by omega
  have hn10 : s.slen + 1 ≠ s.slen := by omega
  have hifopen : (⟨flat ifBr, false⟩ : BBData).insns = [] ∨
      lastIsCFO (⟨flat ifBr, false⟩ : BBData).insns = false :=
    Or.inr (lastIsCFO_false_of_all _ (straight_flat_no_cfo _ hif))
  have hexec := exec_straight ifBr hif
    { store := Function.update s.store s.slen ⟨[], false⟩, slen := s.slen + 1,
      bbList := s.bbList ++ [e], stack := s.slen :: rest } s.slen rest rfl
  cases elseBr with
  | none =>
      refine ⟨?_, ?_, ?_, ?_, ?_⟩ <;>
        [skip; skip; skip; (intro eb' heq; exact absurd heq (by simp)); (intro _; rfl)] <;>
      · simp only [execute_on_optree, getCurrentBB, hstack, List.head?, Option.bind_eq_bind,
          Option.some_bind]
        simp only [transform_cb_to_bb, getCurrentBB, hstack, List.head?, Option.bind_eq_bind,
          Option.some_bind]
        simp only [popCurrentBB, hstack, Bool.or_true, if_pos, pushNewBB]
        rw [hexec]
        simp only [updState, BBData.pushList, Function.update_same, Function.update_idem,
          List.nil_append, Option.bind_eq_bind, Option.some_bind]
        simp only [add_to_bb, Option.map_some', Option.pure_def]
        try simp only [Option.bind_eq_bind, Option.some_bind, Option.map_some']
        try simp [Function.update_noteq hne, Function.update_noteq hne1,
          Function.update_noteq hsne, Function.update_noteq hn01, Function.update_same,
          add_to_bb_data_appends _ _ hfin hopen,
          add_to_bb_data_appends _ _ rfl hifopen, BBData.add, joinOf]
  | some eb =>
      have heb : Straight eb := helse eb rfl
      have hebopen : (⟨flat eb, false⟩ : BBData).insns = [] ∨
          lastIsCFO (⟨flat eb, false⟩ : BBData).insns = false :=
        Or.inr (lastIsCFO_false_of_all _ (straight_flat_no_cfo _ heb))
      have hexec2 := exec_straight eb heb
        { store := Function.update
            (Function.update s.store s.slen ⟨flat ifBr, false⟩) (s.slen+1) ⟨[], false⟩,
          slen := s.slen + 1 + 1,
          bbList := s.bbList ++ [e] ++ [s.slen], stack := (s.slen + 1) :: rest }
        (s.slen + 1) rest rfl
      refine ⟨?_, ?_, ?_, ?_, ?_⟩ <;>
        [skip; skip; skip; (rintro eb' heq; rw [Option.some_inj] at heq; subst heq; skip);
          (intro heq; exact absurd heq (by simp))] <;>
      · simp only [execute_on_optree, getCurrentBB, hstack, List.head?, Option.bind_eq_bind,
          Option.some_bind]
        simp only [transform_cb_to_bb, getCurrentBB, hstack, List.head?, Option.bind_eq_bind,
          Option.some_bind]
        simp only [popCurrentBB, hstack, Bool.or_true, if_pos, pushNewBB]
        rw [hexec]
        simp only [updState, BBData.pushList, Function.update_same, Function.update_idem,
          List.nil_append, Option.bind_eq_bind, Option.some_bind]
        rw [hexec2]
        simp only [updState, BBData.pushList, Function.update_same, Function.update_idem,
          List.nil_append, Option.bind_eq_bind, Option.some_bind]
        simp only [add_to_bb, Option.map_some', Option.pure_def]
        try simp only [Option.bind_eq_bind, Option.some_bind, Option.map_some']
        try simp [Function.update_noteq hne, Function.update_noteq hne1,
          Function.update_noteq hne2, Function.update_noteq hsne, Function.update_noteq hs1e,
          Function.update_noteq hn01, Function.update_noteq hn02, Function.update_noteq hn12,
          Function.update_noteq hn10, Function.update_same,
          add_to_bb_data_appends _ _ hfin hopen,
          add_to_bb_data_appends _ _ rfl hifopen,
          add_to_bb_data_appends _ _ rfl hebopen, BBData.add, joinOf]

/-- A fresh lowering state: one empty, open entry block (id 0) on the stack,
as `execute_on_function` sets it up. -/
def lowerInit : GenState :=
  { store := fun _ => ⟨[], false⟩, slen := 1, bbList := [], stack := [0] }

/-- Instructions of the if-branch end block (id 1) after lowering
`if (0) return 7` from the fresh state. -/
def condReturnIfEndInsns : Option (List Insn) :=
  (execute_on_optree (.cond 0 (.ret 7) none) lowerInit).map (fun p => (p.1.store 1).insns)

/-- C6 (counterexample): lowering `ConditionBlock(cond, Return 7)` leaves the
if-branch block containing only the `Return` — no `UnconditionalBranch` to
the join block (id 2) is attached, because the if-branch block is `final` and
`add_to_bb` is a no-op on it.  This refutes the claim that an
`UnconditionalBranch` to the join block is attached at the end of the
if-branch block for every `ConditionBlock`. -/
theorem cond_return_branch_no_uncond_branch :
    condReturnIfEndInsns = some [.ret 7] ∧
      Insn.uncondBranch 2 ∉ ([Insn.ret 7] : List Insn) := by
  constructor
  · simp only [condReturnIfEndInsns, lowerInit, execute_on_optree, transform_cb_to_bb,
      getCurrentBB, popCurrentBB, pushNewBB, pushToCurrentBB, setCurrentFinal, add_to_bb,
      add_to_bb_data, BBData.pushInsn, BBData.empty, BBData.add, lastIsCFO, isCFO,
      Option.bind_eq_bind, Option.some_bind, Option.map_some', List.head?]
    simp [Function.update]
  · decide

/-- Witness for `transform_cb_contract` on a concrete conditional with both
branches. -/
theorem transform_cb_contract_witness :
    (execute_on_optree (.cond 9 (.plain 1) (some (.plain 2))) lowerInit).map
        (fun p => (p.1.store 0).insns) = some [Insn.condBranch 9 1 2] := by
  have h := transform_cb_contract 9 (.plain 1) (some (.plain 2)) lowerInit 0 [] rfl
    (by decide) rfl (Or.inl rfl) (Straight.plain 1)
    (fun eb heq => by rw [Option.some_inj] at heq; exact heq ▸ Straight.plain 2)
  simpa [lowerInit] using h.2.1


/-! ## Dominance analysis -/

/-- `CFGEdge` (p_gen_bb.py:217-220): a source/destination pair of blocks. -/
structure CFGEdge where
  src : Nat
  dst : Nat
deriving DecidableEq, Repr

/-- The `dominator_map` Python dict, embedded as an association list from a
block to its set of dominators (insertion order of `dict` keys is kept; keys
are unique as in a dict). -/
abbrev DomMap := List (Nat × Finset Nat)

/-- `dominator_map[b]`: `none` models a raised `KeyError`. -/
def domLookup (m : DomMap) (b : Nat) : Option (Finset Nat) :=
  (m.find? (fun p => p.1 = b)).map (fun p => p.2)

/-- Total lookup used to state properties (`∅` when the key is absent; the
theorems establish that relevant keys are present). -/
def domD (m : DomMap) (b : Nat) : Finset Nat := (domLookup m b).getD ∅

/-- `dominator_map[b] = s` on an existing key. -/
def domUpdate (m : DomMap) (b : Nat) (s : Finset Nat) : DomMap :=
  m.map (fun p => if p.1 = b then (b, s) else p)

/-- The predecessor list of `b`, as collected by
`build_predominance_map_list` (p_gen_bb.py:308-314): the sources of all edges
whose destination is `b`. -/
def predsOf (edges : List CFGEdge) (b : Nat) : List Nat :=
  (edges.filter (fun e => e.dst = b)).map (fun e => e.src)

/-- The keys of `predominance_map_list`: every edge destination, once. -/
def edgeDsts (edges : List CFGEdge) : List Nat := (edges.map (fun e => e.dst)).dedup

theorem mem_edgeDsts (edges : List CFGEdge) (b : Nat) :
    b ∈ edgeDsts edges ↔ predsOf edges b ≠ [] := by
  simp only [edgeDsts, List.mem_dedup, List.mem_map, predsOf, ne_eq,
    List.map_eq_nil_iff, List.filter_eq_nil_iff]
  constructor
  · rintro ⟨e, he, rfl⟩ habs
    exact habs e he (by simp)
  · intro h
    by_contra habs
    push_neg at habs
    refine h (fun e he => ?_)
    simp only [decide_eq_true_eq]
    exact fun hd => habs e he hd

theorem domUpdate_keys (m : DomMap) (b : Nat) (s : Finset Nat) :
    (domUpdate m b s).map Prod.fst = m.map Prod.fst := by
  induction m with
  | nil => rfl
  | cons p rest ih =>
      simp only [domUpdate, List.map_cons] at ih ⊢
      by_cases hp : p.1 = b
      · simp [hp, ih]
      · simp [hp, ih]

theorem domLookup_isSome_of_mem_keys (m : DomMap) (b : Nat) (h : b ∈ m.map Prod.fst) :
    (domLookup m b).isSome := by
  induction m with
  | nil => simp at h
  | cons p rest ih =>
      simp only [List.map_cons, List.mem_cons] at h
      by_cases hp : p.1 = b
      · simp [domLookup, List.find?_cons_of_pos, hp]
      · rcases h with h | h
        · exact absurd h.symm hp
        · rw [domLookup, List.find?_cons_of_neg _ (by simpa using hp)]
          exact ih h

theorem domLookup_update_other (m : DomMap) (b : Nat) (s : Finset Nat) (a : Nat)
    (h : a ≠ b) : domLookup (domUpdate m b s) a = domLookup m a := by
  induction m with
  | nil => rfl
  | cons p rest ih =>
      simp only [domUpdate, List.map_cons]
      by_cases hp : p.1 = b
      · have hba : ¬ ((b, s).1 = a) := by simpa using fun hh => h hh.symm
        rw [if_pos hp, domLookup, List.find?_cons_of_neg _ (by simpa using hba),
          domLookup, List.find?_cons_of_neg _ (by simp [hp]; exact fun hh => h.symm (hp ▸ hh))]
        exact ih
      · rw [if_neg hp]
        by_cases hpa : p.1 = a
        · rw [domLookup, List.find?_cons_of_pos _ (by simpa using hpa),
            domLookup, List.find?_cons_of_pos _ (by simpa using hpa)]
        · rw [domLookup, List.find?_cons_of_neg _ (by simpa using hpa),
            domLookup, List.find?_cons_of_neg _ (by simpa using hpa)]
          exact ih

theorem domLookup_update_self (m : DomMap) (b : Nat) (s : Finset Nat)
    (h : (domLookup m b).isSome) : domLookup (domUpdate m b s) b = some s := by
  induction m with
  | nil => simp [domLookup] at h
  | cons p rest ih =>
      simp only [domUpdate, List.map_cons]
      by_cases hp : p.1 = b
      · rw [if_pos hp, domLookup, List.find?_cons_of_pos _ (by simp)]
        rfl
      · rw [if_neg hp]
        rw [domLookup, List.find?_cons_of_neg _ (by simpa using hp)] at h ⊢
        exact ih h

theorem domUpdate_self (m : DomMap) (b : Nat) (old : Finset Nat)
    (hnd : (m.map Prod.fst).Nodup) (h : domLookup m b = some old) :
    domUpdate m b old = m := by
  induction m with
  | nil => rfl
  | cons p rest ih =>
      simp only [List.map_cons, List.nodup_cons] at hnd
      simp only [domUpdate, List.map_cons]
      by_cases hp : p.1 = b
      · have hval : p.2 = old := by
          rw [domLookup, List.find?_cons_of_pos _ (by simpa using hp)] at h
          simpa using h
        have hnomem : ∀ q ∈ rest, (fun q => if q.1 = b then (b, old) else q) q = id q := by
          intro q hq
          have : q.1 ≠ b := by
            rw [← hp]
            exact fun hh => hnd.1 (hh ▸ (List.mem_map_of_mem Prod.fst hq))
          simp [this]
        rw [if_pos hp]
        rw [List.map_congr_left hnomem, List.map_id]
        congr 1
        exact Prod.ext (by simp [hp]) (by simp [hval])
  -- other case below
      · rw [if_neg hp]
        rw [domLookup, List.find?_cons_of_neg _ (by simpa using hp)] at h
        exact congrArg (p :: ·) (ih hnd.2 h)

/-- `set.intersection(*tuple(dominator_map[pred] for pred in preds))`
(p_gen_bb.py:332-334): `none` both on an empty predecessor tuple (a Python
`TypeError`) and on a missing key (`KeyError`). -/
def interPredDoms (m : DomMap) : List Nat → Option (Finset Nat)
  | [] => none
  | p :: ps => do
      let s0 ← domLookup m p
      ps.foldlM (fun acc q => (domLookup m q).map (fun t => acc ∩ t)) s0

/-- One body iteration of the fixpoint loop of `build_dominator_map`
(p_gen_bb.py:329-340) for one block `bb` with predecessors:
`dom = {bb} ∪ ⋂ dom(pred)`, record whether the set changed, store it.  The
missing-key report at line 336-337 is a raised `Log.Error`, modelled by
`none`. -/
def domStep (edges : List CFGEdge) (m : DomMap) (bb : Nat) : Option (DomMap × Bool) := do
  let inter ← interPredDoms m (predsOf edges bb)
  let newSet := insert bb inter
  let old ← domLookup m bb
  return (domUpdate m bb newSet, newSet ≠ old)

/-- One full pass of the `while True` loop body over all keys of
`predominance_map_list`, accumulating the `change` flag. -/
def domPass (edges : List CFGEdge) : List Nat → DomMap → Option (DomMap × Bool)
  | [], m => some (m, false)
  | bb :: rest, m => do
      let (m1, ch1) ← domStep edges m bb
      let (m2, ch2) ← domPass edges rest m1
      return (m2, ch1 || ch2)

/-- The `while True: ...; if not change: break` loop of
`build_dominator_map`, with fuel. -/
def domIter (edges : List CFGEdge) (keys : List Nat) : Nat → DomMap → Option DomMap
  | 0, _ => none
  | fuel+1, m => do
      let (m1, ch) ← domPass edges keys m
      if ch then domIter edges keys fuel m1 else return m1

/-- `build_dominator_map` (p_gen_bb.py:316-343): initialize `dom(b) = {b}`
for every block of the list, then iterate to a fixpoint over all blocks with
at least one predecessor. -/
def build_dominator_map (fuel : Nat) (edges : List CFGEdge) (blocks : List Nat) :
    Option DomMap :=
  domIter edges (edgeDsts edges) fuel (blocks.dedup.map (fun b => (b, {b})))

theorem interFold_char (m : DomMap) (ps : List Nat) :
    ∀ acc t : Finset Nat,
      ps.foldlM (fun acc q => (domLookup m q).map (fun u => acc ∩ u)) acc = some t →
      ∀ x, x ∈ t ↔ x ∈ acc ∧ ∀ q ∈ ps, x ∈ domD m q := by
  induction ps with
  | nil =>
      intro acc t h x
      simp only [List.foldlM] at h
      rw [show (pure acc : Option (Finset Nat)) = some acc from rfl] at h
      cases h
      simp
  | cons q qs ih =>
      intro acc t h x
      simp only [List.foldlM, Option.bind_eq_bind] at h
      cases hq : domLookup m q with
      | none => rw [hq] at h; simp at h
      | some u =>
          rw [hq] at h
          simp only [Option.map_some', Option.some_bind] at h
          have := ih (acc ∩ u) t h x
          rw [this]
          simp only [Finset.mem_inter, List.mem_cons, domD]
          constructor
          · rintro ⟨⟨h1, h2⟩, h3⟩
            exact ⟨h1, fun r hr => hr.elim (fun hh => hh ▸ by simp [hq, h2]) (h3 r)⟩
          · rintro ⟨h1, h2⟩
            refine ⟨⟨h1, ?_⟩, fun r hr => h2 r (Or.inr hr)⟩
            have := h2 q (Or.inl rfl)
            simpa [hq] using this

theorem interPredDoms_char (m : DomMap) (l : List Nat) (t : Finset Nat)
    (h : interPredDoms m l = some t) :
    l ≠ [] ∧ ∀ x, x ∈ t ↔ ∀ q ∈ l, x ∈ domD m q := by
  cases l with
  | nil => simp [interPredDoms] at h
  | cons p ps =>
      refine ⟨by simp, ?_⟩
      simp only [interPredDoms, Option.bind_eq_bind] at h
      cases hp : domLookup m p with
      | none => rw [hp] at h; simp at h
      | some s0 =>
          rw [hp] at h
          simp only [Option.some_bind] at h
          intro x
          rw [interFold_char m ps s0 t h x]
          simp only [List.mem_cons, domD]
          constructor
          · rintro ⟨h1, h2⟩ r hr
            exact hr.elim (fun hh => hh ▸ by simpa [hp] using h1) (h2 r)
          · intro hh
            refine ⟨by simpa [hp] using hh p (Or.inl rfl), fun r hr => hh r (Or.inr hr)⟩

/-- The invariants maintained by the dominator-map iteration. -/
def DomInv (edges : List CFGEdge) (m : DomMap) : Prop :=
  (m.map Prod.fst).Nodup ∧
  (∀ p ∈ m, p.1 ∈ p.2) ∧
  (∀ p ∈ m, predsOf edges p.1 = [] → p.2 = {p.1})

theorem domStep_inv (edges : List CFGEdge) (m : DomMap) (bb : Nat) (m' : DomMap)
    (ch : Bool) (hinv : DomInv edges m) (h : domStep edges m bb = some (m', ch)) :
    DomInv edges m' ∧ m'.map Prod.fst = m.map Prod.fst := by
  obtain ⟨hnd, hself, hnp⟩ := hinv
  simp only [domStep, Option.bind_eq_bind] at h
  cases hi : interPredDoms m (predsOf edges bb) with
  | none => rw [hi] at h; simp at h
  | some inter =>
      rw [hi] at h
      simp only [Option.some_bind] at h
      cases ho : domLookup m bb with
      | none => rw [ho] at h; simp at h
      | some old =>
          rw [ho] at h
          simp only [Option.some_bind, Option.pure_def, Option.some_inj] at h
          have hm' : m' = domUpdate m bb (insert bb inter) := by
            have := congrArg Prod.fst h
            simpa using this.symm
          have hpreds : predsOf edges bb ≠ [] := (interPredDoms_char m _ _ hi).1
          subst hm'
          refine ⟨⟨?_, ?_, ?_⟩, domUpdate_keys m bb _⟩
          · rw [domUpdate_keys]; exact hnd
          · intro p hp
            obtain ⟨q, hq, hqeq⟩ := List.mem_map.mp hp
            by_cases hqb : q.1 = bb
            · rw [if_pos hqb] at hqeq
              rw [← hqeq]
              simp
            · rw [if_neg hqb] at hqeq
              exact hqeq ▸ hself q hq
          · intro p hp hpe
            obtain ⟨q, hq, hqeq⟩ := List.mem_map.mp hp
            by_cases hqb : q.1 = bb
            · rw [if_pos hqb] at hqeq
              rw [← hqeq] at hpe
              exact absurd hpe hpreds
            · rw [if_neg hqb] at hqeq
              exact hqeq ▸ hnp q hq (hqeq ▸ hpe)

theorem domPass_inv (edges : List CFGEdge) (keys : List Nat) :
    ∀ m m' ch, DomInv edges m → domPass edges keys m = some (m', ch) →
      DomInv edges m' ∧ m'.map Prod.fst = m.map Prod.fst := by
  induction keys with
  | nil =>
      intro m m' ch hinv h
      simp only [domPass, Option.some_inj] at h
      cases h
      exact ⟨hinv, rfl⟩
  | cons bb rest ih =>
      intro m m' ch hinv h
      simp only [domPass, Option.bind_eq_bind] at h
      cases hs : domStep edges m bb with
      | none => rw [hs] at h; simp at h
      | some pr =>
          rw [hs] at h
          simp only [Option.some_bind] at h
          cases hp : domPass edges rest pr.1 with
          | none => rw [hp] at h; simp at h
          | some pr2 =>
              rw [hp] at h
              simp only [Option.some_bind, Option.pure_def, Option.some_inj] at h
              obtain ⟨h1, h2⟩ := domStep_inv edges m bb pr.1 pr.2 hinv hs
              obtain ⟨h3, h4⟩ := ih pr.1 pr2.1 pr2.2 h1 hp
              have : m' = pr2.1 := by
                have := congrArg Prod.fst h
                simpa using this.symm
              subst this
              exact ⟨h3, h4.trans h2⟩

theorem domPass_nochange (edges : List CFGEdge) (keys : List Nat) :
    ∀ m m', DomInv edges m → domPass edges keys m = some (m', false) →
      m' = m ∧ ∀ bb ∈ keys, ∃ inter,
        interPredDoms m (predsOf edges bb) = some inter ∧
        domLookup m bb = some (insert bb inter) := by
  induction keys with
  | nil =>
      intro m m' hinv h
      simp only [domPass, Option.some_inj] at h
      cases h
      exact ⟨rfl, by simp⟩
  | cons bb rest ih =>
      intro m m' hinv h
      simp only [domPass, Option.bind_eq_bind] at h
      cases hs : domStep edges m bb with
      | none => rw [hs] at h; simp at h
      | some pr =>
          rw [hs] at h
          simp only [Option.some_bind] at h
          cases hp : domPass edges rest pr.1 with
          | none => rw [hp] at h; simp at h
          | some pr2 =>
              rw [hp] at h
              simp only [Option.some_bind, Option.pure_def, Option.some_inj] at h
              have hm' : m' = pr2.1 := by
                have := congrArg Prod.fst h
                simpa using this.symm
              have hch : (pr.2 || pr2.2) = false := by
                have := congrArg Prod.snd h
                simpa using this.symm
              have hch12 := Bool.or_eq_false_iff.mp hch
              have hch1 : pr.2 = false := hch12.1
              have hch2 : pr2.2 = false := hch12.2
              -- unpack domStep
              simp only [domStep, Option.bind_eq_bind] at hs
              cases hi : interPredDoms m (predsOf edges bb) with
              | none => rw [hi] at hs; simp at hs
              | some inter =>
                  rw [hi] at hs
                  simp only [Option.some_bind] at hs
                  cases ho : domLookup m bb with
                  | none => rw [ho] at hs; simp at hs
                  | some old =>
                      rw [ho] at hs
                      simp only [Option.some_bind, Option.pure_def, Option.some_inj] at hs
                      have hm1 : pr.1 = domUpdate m bb (insert bb inter) := by
                        have := congrArg Prod.fst hs
                        simpa using this.symm
                      have hflag : (decide (insert bb inter ≠ old)) = pr.2 := by
                        have := congrArg Prod.snd hs
                        simpa using this
                      have hnewold : insert bb inter = old := by
                        rw [hch1] at hflag
                        simpa using hflag
                      have hup : pr.1 = m := by
                        rw [hm1, hnewold]
                        exact domUpdate_self m bb old hinv.1 ho
                      rw [hup] at hp
                      have hp' : domPass edges rest m = some (pr2.1, false) := by
                        rw [hp]
                        congr 1
                        exact Prod.ext rfl hch2
                      obtain ⟨hmm, hrest⟩ := ih m pr2.1 hinv hp'
                      subst hm'
                      refine ⟨hmm, ?_⟩
                      intro b hb
                      rcases List.mem_cons.mp hb with hbb | hbb
                      · subst hbb
                        exact ⟨inter, hi, by rw [ho, hnewold]⟩
                      · exact hrest b hbb

theorem domLookup_eq_some_elim (m : DomMap) (b : Nat) (s : Finset Nat)
    (h : domLookup m b = some s) : ∃ p ∈ m, p.1 = b ∧ p.2 = s := by
  unfold domLookup at h
  cases hf : m.find? (fun p => p.1 = b) with
  | none => rw [hf] at h; simp at h
  | some p =>
      rw [hf] at h
      refine ⟨p, List.mem_of_find?_eq_some hf, ?_, by simpa using h⟩
      have := List.find?_some hf
      simpa using this

theorem domIter_sound (edges : List CFGEdge) (keys : List Nat) :
    ∀ fuel m m', DomInv edges m → domIter edges keys fuel m = some m' →
      DomInv edges m' ∧ m'.map Prod.fst = m.map Prod.fst ∧
      ∀ bb ∈ keys, ∃ inter,
        interPredDoms m' (predsOf edges bb) = some inter ∧
        domLookup m' bb = some (insert bb inter) := by
  intro fuel
  induction fuel with
  | zero => intro m m' _ h; simp [domIter] at h
  | succ fuel ih =>
      intro m m' hinv h
      simp only [domIter, Option.bind_eq_bind] at h
      cases hp : domPass edges keys m with
      | none => rw [hp] at h; simp at h
      | some pr =>
          rw [hp] at h
          simp only [Option.some_bind] at h
          obtain ⟨hinv1, hkeys1⟩ := domPass_inv edges keys m pr.1 pr.2 hinv
            (by rw [hp])
          cases hch : pr.2 with
          | true =>
              rw [hch] at h
              simp only [if_pos] at h
              obtain ⟨ha, hb, hc⟩ := ih pr.1 m' hinv1 h
              exact ⟨ha, hb.trans hkeys1, hc⟩
          | false =>
              rw [hch] at h
              simp only [Bool.false_eq_true, reduceIte, Option.pure_def,
                Option.some_inj] at h
              have hp2 : domPass edges keys m = some (m', false) := by
                rw [hp]
                congr 1
                exact Prod.ext h hch
              obtain ⟨hmm, heqs⟩ := domPass_nochange edges keys m m' hinv hp2
              subst hmm
              exact ⟨hinv, rfl, heqs⟩

/-- C1: at the fixpoint reached by `build_dominator_map`, every block is in
its own dominator set; a block with no CFG predecessor (in particular the
entry) keeps `dom(e) = {e}`; and every block with at least one predecessor
satisfies `dom(n) = {n} ∪ ⋂ dom(p)` over its predecessors `p`. -/
theorem build_dominator_map_fixpoint (fuel : Nat) (edges : List CFGEdge)
    (blocks : List Nat) (dm : DomMap)
    (h : build_dominator_map fuel edges blocks = some dm) :
    (∀ n ∈ blocks, n ∈ domD dm n) ∧
    (∀ e ∈ blocks, predsOf edges e = [] → domD dm e = {e}) ∧
    (∀ n ∈ blocks, predsOf edges n ≠ [] →
      ∀ x, x ∈ domD dm n ↔ (x = n ∨ ∀ p ∈ predsOf edges n, x ∈ domD dm p)) := by
  have hcomp : (Prod.fst ∘ fun b : Nat => (b, ({b} : Finset Nat))) = id := rfl
  have hinv0 : DomInv edges (blocks.dedup.map (fun b => (b, ({b} : Finset Nat)))) := by
    refine ⟨?_, ?_, ?_⟩
    · rw [List.map_map, hcomp, List.map_id]
      exact blocks.nodup_dedup
    · intro p hp
      obtain ⟨b, _, rfl⟩ := List.mem_map.mp hp
      simp
    · intro p hp _
      obtain ⟨b, _, rfl⟩ := List.mem_map.mp hp
      simp
  obtain ⟨hinv, hkeys, heqs⟩ :=
    domIter_sound edges (edgeDsts edges) fuel _ dm hinv0 h
  have hkeys2 : dm.map Prod.fst = blocks.dedup := by
    rw [hkeys, List.map_map, hcomp, List.map_id]
  have hlook : ∀ n ∈ blocks, (domLookup dm n).isSome := by
    intro n hn
    exact domLookup_isSome_of_mem_keys dm n
      (by rw [hkeys2]; exact List.mem_dedup.mpr hn)
  refine ⟨?_, ?_, ?_⟩
  · intro n hn
    obtain ⟨s, hs⟩ := Option.isSome_iff_exists.mp (hlook n hn)
    obtain ⟨p, hpmem, hp1, hp2⟩ := domLookup_eq_some_elim dm n s hs
    have : n ∈ s := by
      rw [← hp1, ← hp2]
      exact hinv.2.1 p hpmem
    simp [domD, hs, this]
  · intro e he hpe
    obtain ⟨s, hs⟩ := Option.isSome_iff_exists.mp (hlook e he)
    obtain ⟨p, hpmem, hp1, hp2⟩ := domLookup_eq_some_elim dm e s hs
    have : s = {e} := by
      rw [← hp2, ← hp1]
      exact hinv.2.2 p hpmem (by rw [hp1]; exact hpe)
    simp [domD, hs, this]
  · intro n hn hpne x
    have hmem : n ∈ edgeDsts edges := (mem_edgeDsts edges n).mpr hpne
    obtain ⟨inter, hi, hl⟩ := heqs n hmem
    obtain ⟨_, hchar⟩ := interPredDoms_char dm (predsOf edges n) inter hi
    have hd : domD dm n = insert n inter := by simp [domD, hl]
    rw [hd]
    simp only [Finset.mem_insert]
    constructor
    · rintro (rfl | hx)
      · exact Or.inl rfl
      · exact Or.inr ((hchar x).mp hx)
    · rintro (rfl | hx)
      · exact Or.inl rfl
      · exact Or.inr ((hchar x).mpr hx)

def c1Edges : List CFGEdge := [⟨0,1⟩,⟨0,2⟩,⟨1,3⟩,⟨2,3⟩]

def c1Blocks : List Nat := [0,1,2,3]

def c1Dm : DomMap := [(0,{0}),(1,{1,0}),(2,{2,0}),(3,{3,0})]

/-- Witness for `build_dominator_map_fixpoint` on a concrete diamond CFG
`0 → 1, 0 → 2, 1 → 3, 2 → 3`. -/
theorem build_dominator_map_fixpoint_witness :
    3 ∈ domD c1Dm 3 ∧ domD c1Dm 0 = {0} :=
  have h := build_dominator_map_fixpoint 10 c1Edges c1Blocks c1Dm (by decide)
  ⟨h.1 3 (by decide), h.2.1 0 (by decide) (by decide)⟩


/-! ## Dominance frontiers (`does_not_strictly_dominate`,
`get_dominance_frontiers`) -/

/-- The `immediate_dominator_map` dict: block to its immediate dominator. -/
abbrev IdomMap := List (Nat × Nat)

/-- `immediate_dominator_map[x]`; `none` models the `KeyError` raised at
p_gen_bb.py:399 when the key is missing. -/
def idomLookup (m : IdomMap) (x : Nat) : Option Nat :=
  (m.find? (fun p => p.1 = x)).map (fun p => p.2)

/-- `does_not_strictly_dominate` (p_gen_bb.py:376-382): `True` when `x = y`,
`False` when `x ∈ dominator_map[y]`, `True` otherwise; `none` models the
`KeyError` on a missing `dominator_map[y]`. -/
def does_not_strictly_dominate (dm : DomMap) (x y : Nat) : Option Bool :=
  if x = y then some true
  else
    match domLookup dm y with
    | none => none
    | some s => some (decide (x ∉ s))

/-- The inner `while` walk of `get_dominance_frontiers`
(p_gen_bb.py:391-399): while `x` does not strictly dominate `dst`, add
`(x, dst)` to the frontier relation and climb to `idom(x)`.  The frontier
dict `{x: set of dst}` is embedded as the set of pairs `(x, dst)`. -/
def dfWalk (dm : DomMap) (idm : IdomMap) (dst : Nat) :
    Nat → Nat → Finset (Nat × Nat) → Option (Finset (Nat × Nat))
  | 0, _, _ => none
  | fuel+1, x, df => do
      let b ← does_not_strictly_dominate dm x dst
      if b then
        match idomLookup idm x with
        | none => none
        | some x2 => dfWalk dm idm dst fuel x2 (insert (x, dst) df)
      else
        return df

/-- The edge loop of `get_dominance_frontiers` (p_gen_bb.py:391). -/
def dfFold (dm : DomMap) (idm : IdomMap) (fuel : Nat) :
    List CFGEdge → Finset (Nat × Nat) → Option (Finset (Nat × Nat))
  | [], df => some df
  | e :: es, df => do
      let df2 ← dfWalk dm idm e.dst fuel e.src df
      dfFold dm idm fuel es df2

/-- `get_dominance_frontiers` (p_gen_bb.py:385-402), over a given dominator
map and immediate-dominator map (on `BasicBlockGraph` these are the cached
`build_dominator_map` / `build_immediate_dominator_map` results). -/
def get_dominance_frontiers (dm : DomMap) (idm : IdomMap) (fuel : Nat)
    (edges : List CFGEdge) : Option (Finset (Nat × Nat)) :=
  dfFold dm idm fuel edges ∅

theorem dfWalk_mono (dm : DomMap) (idm : IdomMap) (dst : Nat) :
    ∀ fuel x df df', dfWalk dm idm dst fuel x df = some df' → df ⊆ df' := by
  intro fuel
  induction fuel with
  | zero => intro x df df' h; simp [dfWalk] at h
  | succ fuel ih =>
      intro x df df' h
      simp only [dfWalk, Option.bind_eq_bind] at h
      cases hb : does_not_strictly_dominate dm x dst with
      | none => rw [hb] at h; simp at h
      | some b =>
          rw [hb] at h
          simp only [Option.some_bind] at h
          cases b with
          | false =>
              simp only [Bool.false_eq_true, reduceIte, Option.pure_def,
                Option.some_inj] at h
              subst h
              exact fun _ hm => hm
          | true =>
              simp only [reduceIte] at h
              cases hi : idomLookup idm x with
              | none => rw [hi] at h; simp at h
              | some x2 =>
                  rw [hi] at h
                  exact fun a ha => ih x2 _ df' h (Finset.mem_insert_of_mem ha)

/-- What it means for a pair `(a, b)` to be a sound dominance-frontier entry:
`a` dominates some CFG predecessor of `b` and does not strictly dominate `b`. -/
def DFSound (dm : DomMap) (edges : List CFGEdge) (ab : Nat × Nat) : Prop :=
  (∃ p, CFGEdge.mk p ab.2 ∈ edges ∧ ∃ sp, domLookup dm p = some sp ∧ ab.1 ∈ sp) ∧
  (ab.1 = ab.2 ∨ ∀ sb, domLookup dm ab.2 = some sb → ab.1 ∉ sb)

theorem dfWalk_sound (dm : DomMap) (idm : IdomMap) (edges : List CFGEdge)
    (hidom : ∀ q ∈ idm, (domLookup dm q.1).isSome ∧ q.2 ∈ domD dm q.1 ∧ q.2 ≠ q.1)
    (htrans : ∀ pb ∈ dm, ∀ pc ∈ dm, pb.1 ∈ pc.2 → pb.2 ⊆ pc.2)
    (p dst : Nat) (hedge : CFGEdge.mk p dst ∈ edges) :
    ∀ fuel x df df', dfWalk dm idm dst fuel x df = some df' →
      (∃ sp, domLookup dm p = some sp ∧ x ∈ sp) →
      (∀ ab ∈ df, DFSound dm edges ab) →
      ∀ ab ∈ df', DFSound dm edges ab := by
  intro fuel
  induction fuel with
  | zero => intro x df df' h _ _; simp [dfWalk] at h
  | succ fuel ih =>
      intro x df df' h hx hdf
      simp only [dfWalk, Option.bind_eq_bind] at h
      cases hb : does_not_strictly_dominate dm x dst with
      | none => rw [hb] at h; simp at h
      | some b =>
          rw [hb] at h
          simp only [Option.some_bind] at h
          cases b with
          | false =>
              simp only [Bool.false_eq_true, reduceIte, Option.pure_def,
                Option.some_inj] at h
              subst h
              exact hdf
          | true =>
              simp only [reduceIte] at h
              cases hi : idomLookup idm x with
              | none => rw [hi] at h; simp at h
              | some x2 =>
                  rw [hi] at h
                  -- the pair (x, dst) just added is sound
                  have hxdst : DFSound dm edges (x, dst) := by
                    constructor
                    · exact ⟨p, hedge, hx⟩
                    · by_cases hxd : x = dst
                      · exact Or.inl hxd
                      · right
                        intro sb hsb
                        unfold does_not_strictly_dominate at hb
                        rw [if_neg hxd, hsb] at hb
                        simpa using hb
                  -- x2 = idom(x) still dominates p
                  have hx2 : ∃ sp, domLookup dm p = some sp ∧ x2 ∈ sp := by
                    obtain ⟨sp, hsp, hxsp⟩ := hx
                    -- idomLookup gives the pair (x, x2) ∈ idm
                    have hqmem : (x, x2) ∈ idm ∧ True := by
                      unfold idomLookup at hi
                      cases hf : idm.find? (fun q => q.1 = x) with
                      | none => rw [hf] at hi; simp at hi
                      | some q =>
                          rw [hf] at hi
                          have hq1 : q.1 = x := by simpa using List.find?_some hf
                          have hq2 : q.2 = x2 := by simpa using hi
                          refine ⟨?_, trivial⟩
                          have := List.mem_of_find?_eq_some hf
                          rwa [← hq1, ← hq2]
                    obtain ⟨hqmem, -⟩ := hqmem
                    obtain ⟨hs1, hs2, -⟩ := hidom (x, x2) hqmem
                    obtain ⟨sx, hsx⟩ := Option.isSome_iff_exists.mp hs1
                    obtain ⟨pbx, hpbxm, hpbx1, hpbx2⟩ := domLookup_eq_some_elim dm x sx hsx
                    obtain ⟨pcp, hpcpm, hpcp1, hpcp2⟩ := domLookup_eq_some_elim dm p sp hsp
                    have hsub := htrans pbx hpbxm pcp hpcpm
                      (by rw [hpbx1, hpcp2]; exact hxsp)
                    have hx2sx : x2 ∈ sx := by
                      simpa [domD, hsx] using hs2
                    refine ⟨sp, hsp, ?_⟩
                    have := hsub (by rw [hpbx2]; exact hx2sx)
                    rwa [hpcp2] at this
                  exact ih x2 _ df' h hx2 (by
                    intro ab hab
                    rcases Finset.mem_insert.mp hab with hab | hab
                    · exact hab ▸ hxdst
                    · exact hdf ab hab)

theorem dfFold_sound (dm : DomMap) (idm : IdomMap) (edges : List CFGEdge) (fuel : Nat)
    (hself : ∀ q ∈ dm, q.1 ∈ q.2)
    (hidom : ∀ q ∈ idm, (domLookup dm q.1).isSome ∧ q.2 ∈ domD dm q.1 ∧ q.2 ≠ q.1)
    (htrans : ∀ pb ∈ dm, ∀ pc ∈ dm, pb.1 ∈ pc.2 → pb.2 ⊆ pc.2)
    (hcover : ∀ e ∈ edges, (domLookup dm e.src).isSome) :
    ∀ es df df', (∀ e ∈ es, e ∈ edges) → dfFold dm idm fuel es df = some df' →
      (∀ ab ∈ df, DFSound dm edges ab) → ∀ ab ∈ df', DFSound dm edges ab := by
  intro es
  induction es with
  | nil =>
      intro df df' _ h hdf
      simp only [dfFold, Option.some_inj] at h
      exact h ▸ hdf
  | cons e es ih =>
      intro df df' hsub h hdf
      simp only [dfFold, Option.bind_eq_bind] at h
      cases hw : dfWalk dm idm e.dst fuel e.src df with
      | none => rw [hw] at h; simp at h
      | some df2 =>
          rw [hw] at h
          simp only [Option.some_bind] at h
          have hesrc : ∃ sp, domLookup dm e.src = some sp ∧ e.src ∈ sp := by
            obtain ⟨sp, hsp⟩ := Option.isSome_iff_exists.mp
              (hcover e (hsub e (by simp)))
            obtain ⟨q, hqm, hq1, hq2⟩ := domLookup_eq_some_elim dm e.src sp hsp
            exact ⟨sp, hsp, by rw [← hq1, ← hq2]; exact hself q hqm⟩
          have hedge : CFGEdge.mk e.src e.dst ∈ edges := by
            have : CFGEdge.mk e.src e.dst = e := rfl
            rw [this]
            exact hsub e (by simp)
          have hdf2 := dfWalk_sound dm idm edges hidom htrans e.src e.dst hedge
            fuel e.src df df2 hw hesrc hdf
          exact ih df2 df' (fun e2 he2 => hsub e2 (by simp [he2])) h hdf2

/-- C2: every pair `(x, y)` in the dominance-frontier map computed by
`get_dominance_frontiers` satisfies: there is a CFG predecessor `p` of `y`
with `x ∈ dom(p)`, and `x` does not strictly dominate `y` (the case `x = y`
being permitted).  The dominator map is assumed to be self-containing,
transitive, and to cover the edge sources, and the immediate-dominator map to
pick a strict dominator, as `build_dominator_map` and
`build_immediate_dominator_map` produce. -/
theorem get_dominance_frontiers_sound (dm : DomMap) (idm : IdomMap) (fuel : Nat)
    (edges : List CFGEdge) (df : Finset (Nat × Nat))
    (hself : ∀ q ∈ dm, q.1 ∈ q.2)
    (hidom : ∀ q ∈ idm, (domLookup dm q.1).isSome ∧ q.2 ∈ domD dm q.1 ∧ q.2 ≠ q.1)
    (htrans : ∀ pb ∈ dm, ∀ pc ∈ dm, pb.1 ∈ pc.2 → pb.2 ⊆ pc.2)
    (hcover : ∀ e ∈ edges, (domLookup dm e.src).isSome)
    (h : get_dominance_frontiers dm idm fuel edges = some df) :
    ∀ x y, (x, y) ∈ df →
      (∃ p, CFGEdge.mk p y ∈ edges ∧ ∃ sp, domLookup dm p = some sp ∧ x ∈ sp) ∧
      (x = y ∨ ∀ sy, domLookup dm y = some sy → x ∉ sy) := by
  intro x y hxy
  have := dfFold_sound dm idm edges fuel hself hidom htrans hcover edges ∅ df
    (fun _ he => he) h (by simp) (x, y) hxy
  exact this

def c2Dm : DomMap := [(0,{0}),(1,{1,0}),(2,{2,0}),(3,{3,0})]

def c2Idm : IdomMap := [(1,0),(2,0),(3,0)]

def c2Edges : List CFGEdge := [⟨0,1⟩,⟨0,2⟩,⟨1,3⟩,⟨2,3⟩]

/-- Witness for `get_dominance_frontiers_sound`: the diamond CFG, whose
frontier map is `{(1,3),(2,3)}`, instantiated at the pair `(1,3)`. -/
theorem get_dominance_frontiers_sound_witness :
    (∃ p, CFGEdge.mk p 3 ∈ c2Edges ∧ ∃ sp, domLookup c2Dm p = some sp ∧ 1 ∈ sp) ∧
    (1 = 3 ∨ ∀ sy, domLookup c2Dm 3 = some sy → 1 ∉ sy) :=
  get_dominance_frontiers_sound c2Dm c2Idm 10 c2Edges {(2,3),(1,3)}
    (by decide) (by decide) (by decide) (by decide) (by decide)
    1 3 (by decide)

def c4Dm : DomMap := [(0,{0}),(1,{0,1})]

def c4Idm : IdomMap := [(1,0)]

def c4Edges : List CFGEdge := [⟨0,1⟩,⟨1,1⟩]

/-- C4 (counterexample): on the CFG `0 → 1, 1 → 1` (a self loop), the walk for
edge `(1,1)` starts at `x = dst = 1`; `does_not_strictly_dominate` returns
`True` for `x == dst`, so the walk does *not* stop there: it adds `dst` to
`DF(x)` — the result contains `(1,1)` — refuting the claim that the walk
stops at `x == dst` without adding `dst`. -/
theorem df_self_loop_pair_added :
    get_dominance_frontiers c4Dm c4Idm 10 c4Edges = some {(1, 1)} ∧
    ((1, 1) : Nat × Nat) ∈ ({(1, 1)} : Finset (Nat × Nat)) := by
  constructor
  · decide
  · decide

/-- C4 (amended): when the walk reaches a point where `x = dst` (in
particular at a self-loop edge), the guard `does_not_strictly_dominate` is
true — `x == dst` counts as *not* strictly dominating — so the walk does not
stop: it adds `(x, dst)` to the frontier at that step and only then advances
to `idom(x)`; any successful continuation keeps the pair. -/
theorem dfWalk_self_adds (dm : DomMap) (idm : IdomMap) (fuel dst : Nat)
    (df df' : Finset (Nat × Nat))
    (h : dfWalk dm idm dst (fuel+1) dst df = some df') : (dst, dst) ∈ df' := by
  simp only [dfWalk, does_not_strictly_dominate, if_pos rfl, Option.bind_eq_bind,
    Option.some_bind, reduceIte] at h
  cases hi : idomLookup idm dst with
  | none => rw [hi] at h; simp at h
  | some x2 =>
      rw [hi] at h
      exact dfWalk_mono dm idm dst fuel x2 _ df' h (Finset.mem_insert_self _ _)

/-- Witness for `dfWalk_self_adds` at the concrete self-loop. -/
theorem dfWalk_self_adds_witness :
    ((1, 1) : Nat × Nat) ∈ ({(1, 1)} : Finset (Nat × Nat)) :=
  dfWalk_self_adds c4Dm c4Idm 9 1 ∅ {(1, 1)} (by decide)


/-! ## Phi-node placement (`phi_node_insertion`) -/

/-- The body of `for y in df:` inside `phi_node_insertion`
(p_gen_bb.py:458-469): if `y` is not yet in the placed set `F`, a phi-node
for the variable is pushed at the head of `y`, `y` joins `F`, and `y` joins
the worklist `W` unless it is itself a definition block.  State is
`(F, W, pushes)`; `pushes` records each `y.push(phi_fct)` insertion event in
order. -/
def phiStep (defs : List Nat) (st : Finset Nat × List Nat × List Nat) (y : Nat) :
    Finset Nat × List Nat × List Nat :=
  if y ∈ st.1 then st
  else (insert y st.1, if y ∈ defs then st.2.1 else st.2.1 ++ [y], st.2.2 ++ [y])

/-- The `while len(W) > 0` worklist loop of `phi_node_insertion`
(p_gen_bb.py:449-469) for one variable, with fuel.  The dominance-frontier
lookup falls back to `[]` on `KeyError` (p_gen_bb.py:452-456), which the
total function `df` models; the Python set pop is embedded as popping the
head of the worklist. -/
def phiInsertVar (df : Nat → List Nat) (defs : List Nat) :
    Nat → List Nat → Finset Nat → List Nat → Option (Finset Nat × List Nat)
  | 0, _, _, _ => none
  | _+1, [], F, pushes => some (F, pushes)
  | fuel+1, x :: w, F, pushes =>
      let st := (df x).foldl (phiStep defs) (F, w, pushes)
      phiInsertVar df defs fuel st.2.1 st.1 st.2.2

/-- The per-variable pass of `phi_node_insertion` (p_gen_bb.py:439-469):
`W` starts as the blocks defining the variable (`variable_defs[v]`), the
placed set `F` starts empty. -/
def phi_node_insertion_var (fuel : Nat) (df : Nat → List Nat) (defs : List Nat) :
    Option (Finset Nat × List Nat) :=
  phiInsertVar df defs fuel defs ∅ []


theorem phiFold_char (defs : List Nat) (ys : List Nat) :
    ∀ F w pushes,
      (∀ z, z ∈ (ys.foldl (phiStep defs) (F, w, pushes)).1 ↔ z ∈ F ∨ z ∈ ys) ∧
      (∀ v, v ∈ (ys.foldl (phiStep defs) (F, w, pushes)).2.1 ↔
        v ∈ w ∨ (v ∈ ys ∧ v ∉ F ∧ v ∉ defs)) ∧
      (pushes.Nodup → pushes.toFinset = F →
        ((ys.foldl (phiStep defs) (F, w, pushes)).2.2.Nodup ∧
         (ys.foldl (phiStep defs) (F, w, pushes)).2.2.toFinset =
           (ys.foldl (phiStep defs) (F, w, pushes)).1)) := by
  induction ys with
  | nil =>
      intro F w pushes
      refine ⟨by simp, by simp, fun hn hf => ⟨hn, by simpa using hf⟩⟩
  | cons y ys ih =>
      intro F w pushes
      simp only [List.foldl_cons]
      by_cases hyF : y ∈ F
      · have hstep : phiStep defs (F, w, pushes) y = (F, w, pushes) := by
          simp [phiStep, hyF]
        rw [hstep]
        obtain ⟨ih1, ih2, ih3⟩ := ih F w pushes
        refine ⟨?_, ?_, ih3⟩
        · intro z
          rw [ih1]
          constructor
          · rintro (hz | hz)
            · exact Or.inl hz
            · exact Or.inr (by simp [hz])
          · rintro (hz | hz)
            · exact Or.inl hz
            · rcases List.mem_cons.mp hz with rfl | hz
              · exact Or.inl hyF
              · exact Or.inr hz
        · intro v
          rw [ih2]
          constructor
          · rintro (hv | ⟨hv1, hv2, hv3⟩)
            · exact Or.inl hv
            · exact Or.inr ⟨by simp [hv1], hv2, hv3⟩
          · rintro (hv | ⟨hv1, hv2, hv3⟩)
            · exact Or.inl hv
            · rcases List.mem_cons.mp hv1 with rfl | hv1
              · exact absurd hyF hv2
              · exact Or.inr ⟨hv1, hv2, hv3⟩
      · have hstep : phiStep defs (F, w, pushes) y =
            (insert y F, if y ∈ defs then w else w ++ [y], pushes ++ [y]) := by
          simp [phiStep, hyF]
        rw [hstep]
        obtain ⟨ih1, ih2, ih3⟩ :=
          ih (insert y F) (if y ∈ defs then w else w ++ [y]) (pushes ++ [y])
        refine ⟨?_, ?_, ?_⟩
        · intro z
          rw [ih1]
          simp only [Finset.mem_insert, List.mem_cons]
          tauto
        · intro v
          rw [ih2]
          by_cases hvy : v = y
          · subst hvy
            by_cases hvd : v ∈ defs
            · rw [if_pos hvd]
              constructor
              · rintro (hv | ⟨-, -, hv3⟩)
                · exact Or.inl hv
                · exact absurd hvd hv3
              · rintro (hv | ⟨-, -, hv3⟩)
                · exact Or.inl hv
                · exact absurd hvd hv3
            · rw [if_neg hvd]
              constructor
              · rintro (hv | ⟨-, hv2, -⟩)
                · rcases List.mem_append.mp hv with hv | hv
                  · exact Or.inl hv
                  · exact Or.inr ⟨List.mem_cons_self _ _, hyF, hvd⟩
                · exact absurd (Finset.mem_insert_self v F) hv2
              · rintro (hv | -)
                · exact Or.inl (List.mem_append.mpr (Or.inl hv))
                · exact Or.inl (List.mem_append.mpr (Or.inr (List.mem_singleton.mpr rfl)))
          · constructor
            · rintro (hv | ⟨hv1, hv2, hv3⟩)
              · by_cases hyd : y ∈ defs
                · rw [if_pos hyd] at hv
                  exact Or.inl hv
                · rw [if_neg hyd] at hv
                  rcases List.mem_append.mp hv with hv | hv
                  · exact Or.inl hv
                  · exact absurd (List.mem_singleton.mp hv) hvy
              · exact Or.inr ⟨List.mem_cons_of_mem _ hv1,
                  fun hc => hv2 (Finset.mem_insert_of_mem hc), hv3⟩
            · rintro (hv | ⟨hv1, hv2, hv3⟩)
              · by_cases hyd : y ∈ defs
                · rw [if_pos hyd]
                  exact Or.inl hv
                · rw [if_neg hyd]
                  exact Or.inl (List.mem_append.mpr (Or.inl hv))
              · rcases List.mem_cons.mp hv1 with rfl | hv1
                · exact absurd rfl hvy
                · refine Or.inr ⟨hv1, ?_, hv3⟩
                  intro hc
                  rcases Finset.mem_insert.mp hc with rfl | hc
                  · exact hvy rfl
                  · exact hv2 hc
        · intro hn hf
          refine ih3 ?_ ?_
          · rw [List.nodup_append]
            refine ⟨hn, by simp, ?_⟩
            intro a ha hb
            rw [List.mem_singleton] at hb
            subst hb
            exact hyF (hf ▸ List.mem_toFinset.mpr ha)
          · rw [List.toFinset_append]
            simp [hf, Finset.insert_eq, Finset.union_comm]

theorem phiInsertVar_sound (df : Nat → List Nat) (defs : List Nat) :
    ∀ fuel W F pushes Fout pout,
      phiInsertVar df defs fuel W F pushes = some (Fout, pout) →
      (∀ w ∈ W, w ∈ defs ∨ w ∈ F) →
      (∀ x, (x ∈ defs ∨ x ∈ F) → (x ∈ W ∨ ∀ y ∈ df x, y ∈ F)) →
      pushes.Nodup → pushes.toFinset = F →
      pout.Nodup ∧ pout.toFinset = Fout ∧ F ⊆ Fout ∧
      (∀ x, (x ∈ defs ∨ x ∈ Fout) → ∀ y ∈ df x, y ∈ Fout) ∧
      (∀ T : Finset Nat, (∀ x, (x ∈ defs ∨ x ∈ T) → ∀ y ∈ df x, y ∈ T) →
        F ⊆ T → Fout ⊆ T) := by
  intro fuel
  induction fuel with
  | zero =>
      intro W F pushes Fout pout h
      simp [phiInsertVar] at h
  | succ fuel ih =>
      intro W F pushes Fout pout h hW hcl hpn hpf
      cases W with
      | nil =>
          simp only [phiInsertVar, Option.some_inj, Prod.mk.injEq] at h
          obtain ⟨h1, h2⟩ := h
          subst h1
          subst h2
          refine ⟨hpn, hpf, le_refl _, ?_, fun T _ hFT => hFT⟩
          intro x hx y hy
          rcases hcl x hx with hx2 | hx2
          · simp at hx2
          · exact hx2 y hy
      | cons x w =>
          simp only [phiInsertVar] at h
          obtain ⟨c1, c2, c3⟩ := phiFold_char defs (df x) F w pushes
          set st := (df x).foldl (phiStep defs) (F, w, pushes) with hst
          obtain ⟨p1, p2⟩ := c3 hpn hpf
          have hFsub : F ⊆ st.1 := fun z hz => (c1 z).mpr (Or.inl hz)
          have hxin : x ∈ defs ∨ x ∈ st.1 := by
            rcases hW x (List.mem_cons_self _ _) with hx | hx
            · exact Or.inl hx
            · exact Or.inr (hFsub hx)
          have hW2 : ∀ v ∈ st.2.1, v ∈ defs ∨ v ∈ st.1 := by
            intro v hv
            rcases (c2 v).mp hv with hv | ⟨hv1, -, -⟩
            · rcases hW v (List.mem_cons_of_mem _ hv) with hv2 | hv2
              · exact Or.inl hv2
              · exact Or.inr (hFsub hv2)
            · exact Or.inr ((c1 v).mpr (Or.inr hv1))
          have hcl2 : ∀ z, (z ∈ defs ∨ z ∈ st.1) → (z ∈ st.2.1 ∨ ∀ y ∈ df z, y ∈ st.1) := by
            intro z hz
            by_cases hzold : z ∈ defs ∨ z ∈ F
            · rcases hcl z hzold with hz2 | hz2
              · rcases List.mem_cons.mp hz2 with rfl | hz2
                · right
                  intro y hy
                  exact (c1 y).mpr (Or.inr hy)
                · left
                  exact (c2 z).mpr (Or.inl hz2)
              · right
                intro y hy
                exact hFsub (hz2 y hy)
            · push_neg at hzold
              have hzF : z ∈ st.1 := by
                rcases hz with hz | hz
                · exact absurd hz hzold.1
                · exact hz
              have hzdf : z ∈ df x := by
                rcases (c1 z).mp hzF with hz2 | hz2
                · exact absurd hz2 hzold.2
                · exact hz2
              left
              exact (c2 z).mpr (Or.inr ⟨hzdf, hzold.2, hzold.1⟩)
          obtain ⟨q1, q2, q3, q4, q5⟩ := ih st.2.1 st.1 st.2.2 Fout pout h hW2 hcl2 p1 p2
          refine ⟨q1, q2, fun z hz => q3 (hFsub hz), q4, ?_⟩
          intro T hT hFT
          refine q5 T hT ?_
          intro z hz
          rcases (c1 z).mp hz with hz2 | hz2
          · exact hFT hz2
          · refine hT x ?_ z hz2
            rcases hxin with hx | hx
            · exact Or.inl hx
            · rcases hW x (List.mem_cons_self _ _) with hx2 | hx2
              · exact Or.inl hx2
              · exact Or.inr (hFT hx2)

/-- C3: for one variable, phi insertion pushes at most one phi-node into any
block (the recorded push events are duplicate-free), the set of blocks
receiving a phi-node is exactly the placed set `F`, and `F` is the least set
closed under the worklist rule — it contains `DF(x)` for every `x` in
`DefBlocks(v) ∪ F` and is contained in every set with that closure property,
i.e. the iterated dominance frontier of the definition blocks. -/
theorem phi_node_insertion_var_sound (fuel : Nat) (df : Nat → List Nat)
    (defs : List Nat) (Fout : Finset Nat) (pout : List Nat)
    (h : phi_node_insertion_var fuel df defs = some (Fout, pout)) :
    pout.Nodup ∧ pout.toFinset = Fout ∧
    (∀ x, (x ∈ defs ∨ x ∈ Fout) → ∀ y ∈ df x, y ∈ Fout) ∧
    (∀ T : Finset Nat, (∀ x, (x ∈ defs ∨ x ∈ T) → ∀ y ∈ df x, y ∈ T) → Fout ⊆ T) := by
  obtain ⟨q1, q2, _, q4, q5⟩ := phiInsertVar_sound df defs fuel defs ∅ [] Fout pout h
    (fun w hw => Or.inl hw)
    (by
      intro x hx
      rcases hx with hx | hx
      · exact Or.inl hx
      · simp at hx)
    List.nodup_nil
    (by simp)
  exact ⟨q1, q2, q4, fun T hT => q5 T hT (Finset.empty_subset T)⟩

def c3Df : Nat → List Nat := fun x => if x = 0 then [1, 2] else if x = 1 then [2] else []

def c3Defs : List Nat := [0]

/-- Witness for `phi_node_insertion_var_sound`: defs `{0}`,
`DF(0) = [1,2]`, `DF(1) = [2]` gives placed set `{1,2}` with each block
pushed once. -/
theorem phi_node_insertion_var_sound_witness :
    ([1, 2] : List Nat).Nodup ∧ ([1, 2] : List Nat).toFinset = ({2, 1} : Finset Nat) :=
  have h := phi_node_insertion_var_sound 10 c3Df c3Defs {2, 1} [1, 2] (by decide)
  ⟨h.1, h.2.1⟩


/-! ## Variable renaming helpers (`update_used_var`,
`updating_reaching_def`) -/

/-- Operation nodes as `update_used_var` observes them: `Variable`,
`Constant` (the two `ML_LeafNode` kinds), `BasicBlock` (skipped by the
rewrite), `ReferenceAssign` (whose input 0 is the defined target and is never
rewritten), and a generic computed operation with its operand positions. -/
inductive MLNode where
  | var (id : Nat)
  | cst (v : Nat)
  | bblock (id : Nat)
  | refAssign (dst : MLNode) (rhs : MLNode)
  | opn (left right : MLNode)
deriving DecidableEq, Repr

/-- `update_used_var` (p_gen_bb.py:501-540), as a rewrite of the operation
tree.  The source checks `if new_var is None:` first and returns immediately
— logging at Verbose level only — leaving `op` unchanged; consequently the
two `Log.report(Log.Error, "trying to update var ... used before def")`
branches at lines 519-520 and 534-535, which the `Except` result type is
there to model, are unreachable: both re-test `new_var is None` inside the
`some` case.  A `ReferenceAssign` skips its input 0 (the defined variable);
recursion into other operands replaces occurrences of `old_var` by
`new_var`. -/
def update_used_var : MLNode → MLNode → Option MLNode → Except String MLNode
  | op, _, none => .ok op
  | op, oldv, some nv =>
      match op with
      | .bblock i => .ok (.bblock i)
      | op =>
          if op = oldv then .ok nv
          else
            match op with
            | .var i => .ok (.var i)
            | .cst v => .ok (.cst v)
            | .bblock i => .ok (.bblock i)
            | .refAssign d r => do
                let r2 ← if r = oldv then pure nv else update_used_var r oldv (some nv)
                pure (.refAssign d r2)
            | .opn a b => do
                let a2 ← if a = oldv then pure nv else update_used_var a oldv (some nv)
                let b2 ← if b = oldv then pure nv else update_used_var b oldv (some nv)
                pure (.opn a2 b2)

/-- C5 (amended): renaming a use whose resolved reaching definition is
`None` is silently skipped — `update_used_var` returns at once with the
operation unchanged and no error; the internal use-before-def error branches
are unreachable. -/
theorem update_used_var_none_skips (op oldv : MLNode) :
    update_used_var op oldv none = .ok op := by
  cases op <;> simp [update_used_var]

/-- C5 (counterexample): a concrete operation using variable 5 whose
reaching definition is `None` is returned unchanged with `Except.ok` — no
hard error is raised, refuting the claim that this is a hard error
aborting the function. -/
theorem update_used_var_none_skips_cex :
    update_used_var (.opn (.var 5) (.cst 0)) (.var 5) none =
      .ok (.opn (.var 5) (.cst 0)) := by
  simp [update_used_var]

/-- The `while not (current == None or bbg.op_dominates(...))` chain walk of
`updating_reaching_def` (p_gen_bb.py:556-558), with fuel.  `domOk c` stands
for `bbg.op_dominates(bbg.variable_defs[c], op)` for the fixed instruction
`op`; `rd` is the `reaching_def` dict (absent keys conflated with `None`).
The result is the final value of `current`. -/
def chainWalk (domOk : Nat → Bool) (rd : Nat → Option Nat) :
    Nat → Option Nat → Option (Option Nat)
  | _, none => some none
  | 0, some _ => none
  | fuel+1, some v => if domOk v then some (some v) else chainWalk domOk rd fuel (rd v)

/-- `updating_reaching_def` (p_gen_bb.py:552-566): walk the definition
chain; if the walk ends on `None`, return `False` leaving `reaching_def`
untouched; otherwise store the found definition under `var` and report
whether that changed the entry. -/
def updating_reaching_def (domOk : Nat → Bool) (rd : Nat → Option Nat) (var : Nat)
    (fuel : Nat) : Option ((Nat → Option Nat) × Bool) :=
  match chainWalk domOk rd fuel (rd var) with
  | none => none
  | some none => some (rd, false)
  | some (some c) => some (Function.update rd var (some c), decide (some c ≠ rd var))

theorem chainWalk_finds_dominating (domOk : Nat → Bool) (rd : Nat → Option Nat) :
    ∀ fuel cur c, chainWalk domOk rd fuel cur = some (some c) → domOk c = true := by
  intro fuel
  induction fuel with
  | zero =>
      intro cur c h
      cases cur with
      | none => simp [chainWalk] at h
      | some v => simp [chainWalk] at h
  | succ fuel ih =>
      intro cur c h
      cases cur with
      | none => simp [chainWalk] at h
      | some v =>
          simp only [chainWalk] at h
          by_cases hv : domOk v
          · rw [if_pos hv] at h
            simp only [Option.some_inj] at h
            rwa [← h]
          · rw [if_neg hv] at h
            exact ih (rd v) c h

/-- C10: when the chain walk finds no definition whose block dominates the
instruction (it reaches `None`), `updating_reaching_def` leaves the
`reaching_def` map unchanged — the very same map is returned — with result
`False`; and whenever the returned map differs at `var`, the walk found a
definition `c` that satisfies the dominance test. -/
theorem updating_reaching_def_guard (domOk : Nat → Bool) (rd : Nat → Option Nat)
    (var fuel : Nat) :
    (chainWalk domOk rd fuel (rd var) = some none →
      updating_reaching_def domOk rd var fuel = some (rd, false)) ∧
    (∀ rd2 ch, updating_reaching_def domOk rd var fuel = some (rd2, ch) →
      rd2 var ≠ rd var →
      ∃ c, chainWalk domOk rd fuel (rd var) = some (some c) ∧ domOk c = true) := by
  constructor
  · intro h
    simp [updating_reaching_def, h]
  · intro rd2 ch h hne
    cases hw : chainWalk domOk rd fuel (rd var) with
    | none => simp [updating_reaching_def, hw] at h
    | some o =>
        cases o with
        | none =>
            simp only [updating_reaching_def, hw, Option.some_inj, Prod.mk.injEq] at h
            exact absurd (h.1 ▸ rfl) hne
        | some c =>
            exact ⟨c, rfl, chainWalk_finds_dominating domOk rd fuel (rd var) c hw⟩

def c10DomOk : Nat → Bool := fun _ => false

def c10Rd : Nat → Option Nat := fun v => if v = 0 then some 1 else none

/-- Witness for `updating_reaching_def_guard`: a two-link chain whose
definitions never dominate, so the walk reaches `None` and the map is
returned unchanged. -/
theorem updating_reaching_def_guard_witness :
    updating_reaching_def c10DomOk c10Rd 0 3 = some (c10Rd, false) :=
  (updating_reaching_def_guard c10DomOk c10Rd 0 3).1 rfl


/-! ## Node-to-block assignment (`sort_node_by_bb`,
`copy_up_to_variables`) -/

/-- Expression-graph nodes as a store: node ids index into a list, a node's
datum holds its constructor and the ids of its operands.  `var`/`cst` are the
`ML_LeafNode` kinds, `opn` a generic non-leaf operation, `cbr`/`ubr` the
`ControlFlowOperation`s (their branch targets are basic-block ids, a separate
namespace, so they are not operand ids).  Object identity of the Python graph
is node-id equality; a `.copy()` allocates a fresh id. -/
inductive NDat where
  | var (tag : Nat)
  | cst (tag : Nat)
  | opn (children : List Nat)
  | cbr (cond : Nat) (tbb fbb : Nat)
  | ubr (tbb : Nat)
deriving DecidableEq, Repr

/-- The operand node ids of a datum (block targets of branches are not
nodes). -/
def childIds : NDat → List Nat
  | .var _ => []
  | .cst _ => []
  | .opn ch => ch
  | .cbr c _ _ => [c]
  | .ubr _ => []

/-- The ids `sort_node_by_bb` pushes on the working set for a node
(p_gen_bb.py:209-213): all operands of a non-leaf non-control node, the
condition (input 0) of a `ConditionalBranch`, nothing otherwise. -/
def pushIds : NDat → List Nat
  | .opn ch => ch
  | .cbr c _ _ => [c]
  | _ => []

/-- A well-formed store: every operand id points inside the store. -/
def ClosedStore (st : List NDat) : Prop :=
  ∀ d ∈ st, ∀ c ∈ childIds d, c < st.length

instance (st : List NDat) : Decidable (ClosedStore st) := by
  unfold ClosedStore
  infer_instance

mutual

/-- `get_recursive_op_graph_vars` (p_gen_bb.py:159-176): the set of Variable
nodes reachable from a node.  Fuel models the recursion depth; `none` stands
for divergence or an unsupported (control-flow) node. -/
def getRecVars (st : List NDat) : Nat → Nat → Option (Finset Nat)
  | 0, _ => none
  | fuel+1, n =>
      match st.get? n with
      | none => none
      | some (.var _) => some {n}
      | some (.cst _) => some ∅
      | some (.opn ch) => getRecVarsList st fuel ch
      | some _ => none
termination_by fuel n => (fuel, 0)

/-- `get_recursive_op_graph_vars` over a node's input list. -/
def getRecVarsList (st : List NDat) : Nat → List Nat → Option (Finset Nat)
  | _, [] => some ∅
  | fuel, c :: cs => do
      let v1 ← getRecVars st fuel c
      let v2 ← getRecVarsList st fuel cs
      return v1 ∪ v2
termination_by fuel l => (fuel, l.length + 1)

end

mutual

/-- `node.copy(copy_map)`: recursively copy a node, allocating fresh store
entries, except for nodes already in the copy map `memo` (which
`copy_up_to_variables` pre-seeds with every reachable Variable mapped to
itself).  Returns the extended store, the extended map and the copy's id. -/
def copyNode : Nat → List NDat → (Nat → Option Nat) → Nat →
    Option (List NDat × (Nat → Option Nat) × Nat)
  | 0, _, _, _ => none
  | fuel+1, st, memo, n =>
      match memo n with
      | some m => some (st, memo, m)
      | none =>
          match st.get? n with
          | none => none
          | some (.var t) =>
              some (st ++ [.var t], Function.update memo n (some st.length), st.length)
          | some (.cst t) =>
              some (st ++ [.cst t], Function.update memo n (some st.length), st.length)
          | some (.opn ch) => do
              let (st2, memo2, ch2) ← copyNodeList fuel st memo ch
              return (st2 ++ [.opn ch2], Function.update memo2 n (some st2.length),
                st2.length)
          | some _ => none
termination_by fuel _ _ _ => (fuel, 0)

/-- `node.copy` over an input list, threading store and copy map. -/
def copyNodeList : Nat → List NDat → (Nat → Option Nat) → List Nat →
    Option (List NDat × (Nat → Option Nat) × List Nat)
  | _, st, memo, [] => some (st, memo, [])
  | fuel, st, memo, c :: cs => do
      let (st2, memo2, c2) ← copyNode fuel st memo c
      let (st3, memo3, cs2) ← copyNodeList fuel st2 memo2 cs
      return (st3, memo3, c2 :: cs2)
termination_by fuel _ _ l => (fuel, l.length + 1)

end

/-- `copy_up_to_variables` (p_gen_bb.py:178-181): copy a node's graph
without copying variables, by seeding the copy map with
`{var: var for var in get_recursive_op_graph_vars(node)}`. -/
def copy_up_to_variables (fuel : Nat) (st : List NDat) (n : Nat) :
    Option (List NDat × Nat) := do
  let vars ← getRecVars st fuel n
  let (st2, _, r) ← copyNode fuel st (fun k => if k ∈ vars then some k else none) n
  return (st2, r)

/-- The conflict branch of `sort_node_by_bb` (p_gen_bb.py:198-207), taken
when a node is reached from a block other than the one it is mapped to: a
`Variable` is left alone (shared), a `Constant` is cloned (`node.copy()`),
anything else is copied up to variables.  Returns the (possibly extended)
store and the id that will be assigned to the new block. -/
def conflictResolve (fuel : Nat) (st : List NDat) (n : Nat) :
    Option (List NDat × Nat) :=
  match st.get? n with
  | some (.var _) => some (st, n)
  | some (.cst t) => some (st ++ [.cst t], st.length)
  | some _ => copy_up_to_variables fuel st n
  | none => none

/-- The `bb_map` dict: node id to basic-block index, insertion-ordered with
unique keys. -/
abbrev BBMap := List (Nat × Nat)

def bmapLookup (m : BBMap) (k : Nat) : Option Nat :=
  (m.find? (fun p => p.1 = k)).map (fun p => p.2)

def bmapSet (m : BBMap) (k v : Nat) : BBMap :=
  if (m.find? (fun p => p.1 = k)).isSome then
    m.map (fun p => if p.1 = k then (k, v) else p)
  else m ++ [(k, v)]

/-- The per-block worklist loop of `sort_node_by_bb` (p_gen_bb.py:190-213):
pop a node; skip if processed; on a block conflict resolve per the copy
policy; record the (possibly cloned) node's block; push its operands.  The
Python set pop is embedded as popping the head of a list. -/
def procBB : Nat → List NDat → BBMap → Nat → List Nat → Finset Nat →
    Option (List NDat × BBMap)
  | 0, _, _, _, _, _ => none
  | _+1, st, bmap, _, [], _ => some (st, bmap)
  | fuel+1, st, bmap, bb, n :: ws, processed =>
      if n ∈ processed then procBB fuel st bmap bb ws processed
      else
        let conflict :=
          match bmapLookup bmap n with | some b => decide (b ≠ bb) | none => false
        if conflict then
          match conflictResolve fuel st n with
          | none => none
          | some (st2, n2) =>
              match st2.get? n2 with
              | none => none
              | some d =>
                  procBB fuel st2 (bmapSet bmap n2 bb) bb
                    (pushIds d ++ ws) (insert n processed)
        else
          match st.get? n with
          | none => none
          | some d =>
              procBB fuel st (bmapSet bmap n bb) bb
                (pushIds d ++ ws) (insert n processed)

/-- The outer `for bb in bb_list.inputs` loop of `sort_node_by_bb`, seeding
each block's working set with the block's instruction list. -/
def sortGo (fuel : Nat) : List NDat → BBMap → List (List Nat) → Nat →
    Option (List NDat × BBMap)
  | st, bmap, [], _ => some (st, bmap)
  | st, bmap, content :: rest, idx => do
      let (st2, bmap2) ← procBB fuel st bmap idx content ∅
      sortGo fuel st2 bmap2 rest (idx + 1)

/-- `sort_node_by_bb` (p_gen_bb.py:184-215): map every node reachable from
the blocks' instruction lists to one owning block.  The block contents `bbs`
are inputs only: the function returns the extended store and the map — it
has no way to alter a block's instruction list. -/
def sort_node_by_bb (fuel : Nat) (st : List NDat) (bbs : List (List Nat)) :
    Option (List NDat × BBMap) :=
  sortGo fuel st [] bbs 0

/-- A small store: node 2 is `opn` over variable 0 and constant 1. -/
def tSt : List NDat := [.var 0, .cst 7, .opn [0, 1]]

theorem ndat_get_mem {st : List NDat} {k : Nat} {d : NDat}
    (h : st.get? k = some d) : d ∈ st :=
  List.get?_mem h

theorem ndat_get_lt {st : List NDat} {k : Nat} {d : NDat}
    (h : st.get? k = some d) : k < st.length :=
  (List.get?_eq_some.mp h).1

theorem getRecVars_vars : ∀ fuel : Nat,
    (∀ st n V, getRecVars st fuel n = some V →
      ∀ v ∈ V, ∃ t, st.get? v = some (.var t)) ∧
    (∀ st l V, getRecVarsList st fuel l = some V →
      ∀ v ∈ V, ∃ t, st.get? v = some (.var t)) := by
  intro fuel
  induction fuel with
  | zero =>
      constructor
      · intro st n V h; simp [getRecVars] at h
      · intro st l V h v hv
        cases l with
        | nil =>
            simp only [getRecVarsList, Option.some_inj] at h
            subst h
            simp at hv
        | cons c cs => simp [getRecVarsList, getRecVars] at h
  | succ fuel ih =>
      have hnode : ∀ st n V, getRecVars st (fuel+1) n = some V →
          ∀ v ∈ V, ∃ t, st.get? v = some (.var t) := by
        intro st n V h v hv
        simp only [getRecVars] at h
        cases hg : st.get? n with
        | none => rw [hg] at h; exact absurd h (by simp)
        | some d =>
            rw [hg] at h
            cases d with
            | var t =>
                simp only [Option.some_inj] at h
                subst h
                simp only [Finset.mem_singleton] at hv
                subst hv
                exact ⟨t, hg⟩
            | cst t =>
                simp only [Option.some_inj] at h
                subst h
                simp at hv
            | opn ch => exact ih.2 st ch V h v hv
            | cbr c t f => exact absurd h (by simp)
            | ubr t => exact absurd h (by simp)
      refine ⟨hnode, ?_⟩
      intro st l
      induction l with
      | nil =>
          intro V h v hv
          simp only [getRecVarsList, Option.some_inj] at h
          subst h
          simp at hv
      | cons c cs ihl =>
          intro V h v hv
          simp only [getRecVarsList, Option.bind_eq_bind] at h
          cases h1 : getRecVars st (fuel+1) c with
          | none => rw [h1] at h; simp at h
          | some v1 =>
              rw [h1] at h
              simp only [Option.some_bind] at h
              cases h2 : getRecVarsList st (fuel+1) cs with
              | none => rw [h2] at h; simp at h
              | some v2 =>
                  rw [h2] at h
                  simp only [Option.some_bind', Option.pure_def, Option.some_inj] at h
                  subst h
                  rcases Finset.mem_union.mp hv with hv | hv
                  · exact hnode st c v1 h1 v hv
                  · exact ihl v2 h2 v hv

theorem getRecVars_extend (st Δ : List NDat) (hC : ClosedStore st) : ∀ fuel : Nat,
    (∀ n, n < st.length → getRecVars (st ++ Δ) fuel n = getRecVars st fuel n) ∧
    (∀ l, (∀ c ∈ l, c < st.length) →
      getRecVarsList (st ++ Δ) fuel l = getRecVarsList st fuel l) := by
  intro fuel
  induction fuel with
  | zero =>
      refine ⟨fun n _ => by simp [getRecVars], ?_⟩
      intro l hl
      cases l with
      | nil => simp [getRecVarsList]
      | cons c cs => simp [getRecVarsList, getRecVars]
  | succ fuel ih =>
      have hnode : ∀ n, n < st.length →
          getRecVars (st ++ Δ) (fuel+1) n = getRecVars st (fuel+1) n := by
        intro n hn
        have hg : (st ++ Δ).get? n = st.get? n := List.get?_append hn
        simp only [getRecVars, hg]
        cases hd : st.get? n with
        | none => simp
        | some d =>
            cases d with
            | var t => simp
            | cst t => simp
            | opn ch =>
                have hch : ∀ c ∈ ch, c < st.length := by
                  intro c hc
                  exact hC _ (ndat_get_mem hd) c (by simpa [childIds] using hc)
                simp only [ih.2 ch hch]
            | cbr c t f => simp
            | ubr t => simp
      refine ⟨hnode, ?_⟩
      intro l
      induction l with
      | nil => intro _; simp [getRecVarsList]
      | cons c cs ihl =>
          intro hl
          simp only [getRecVarsList]
          rw [hnode c (hl c (List.mem_cons_self _ _)),
            ihl (fun x hx => hl x (List.mem_cons_of_mem _ hx))]

theorem closed_snoc (st : List NDat) (d : NDat) (hC : ClosedStore st)
    (hd : ∀ c ∈ childIds d, c < (st ++ [d]).length) : ClosedStore (st ++ [d]) := by
  intro e he c hc
  rcases List.mem_append.mp he with he | he
  · have := hC e he c hc
    simp only [List.length_append, List.length_singleton]
    omega
  · rw [List.mem_singleton] at he
    subst he
    exact hd c hc

theorem copyNode_frame : ∀ fuel : Nat,
    (∀ st memo n st2 memo2 r,
      ClosedStore st → (∀ k v, memo k = some v → v < st.length) →
      copyNode fuel st memo n = some (st2, memo2, r) →
      (∃ Δ, st2 = st ++ Δ) ∧ ClosedStore st2 ∧
      (∀ k v, memo k = some v → memo2 k = some v) ∧
      (∀ k v, memo2 k = some v → v < st2.length) ∧
      r < st2.length) ∧
    (∀ st memo l st2 memo2 rs,
      ClosedStore st → (∀ k v, memo k = some v → v < st.length) →
      copyNodeList fuel st memo l = some (st2, memo2, rs) →
      (∃ Δ, st2 = st ++ Δ) ∧ ClosedStore st2 ∧
      (∀ k v, memo k = some v → memo2 k = some v) ∧
      (∀ k v, memo2 k = some v → v < st2.length) ∧
      (∀ r ∈ rs, r < st2.length)) := by
  intro fuel
  induction fuel with
  | zero =>
      constructor
      · intro st memo n st2 memo2 r _ _ h
        simp [copyNode] at h
      · intro st memo l st2 memo2 rs hC hR h
        cases l with
        | nil =>
            simp only [copyNodeList, Option.some_inj, Prod.mk.injEq] at h
            obtain ⟨h1, h2, h3⟩ := h
            subst h1; subst h2; subst h3
            exact ⟨⟨[], by simp⟩, hC, fun k v hv => hv, hR, by simp⟩
        | cons c cs => simp [copyNodeList, copyNode] at h
  | succ fuel ih =>
      have hnode : ∀ st memo n st2 memo2 r,
          ClosedStore st → (∀ k v, memo k = some v → v < st.length) →
          copyNode (fuel+1) st memo n = some (st2, memo2, r) →
          (∃ Δ, st2 = st ++ Δ) ∧ ClosedStore st2 ∧
          (∀ k v, memo k = some v → memo2 k = some v) ∧
          (∀ k v, memo2 k = some v → v < st2.length) ∧
          r < st2.length := by
        intro st memo n st2 memo2 r hC hR h
        simp only [copyNode] at h
        cases hm : memo n with
        | some m =>
            rw [hm] at h
            simp only [Option.some_inj, Prod.mk.injEq] at h
            obtain ⟨h1, h2, h3⟩ := h
            subst h1; subst h2; subst h3
            exact ⟨⟨[], by simp⟩, hC, fun k v hv => hv, hR, hR n _ hm⟩
        | none =>
            rw [hm] at h
            cases hg : st.get? n with
            | none => rw [hg] at h; simp at h
            | some d =>
                rw [hg] at h
                cases d with
                | var t =>
                    simp only [Option.some_inj, Prod.mk.injEq] at h
                    obtain ⟨h1, h2, h3⟩ := h
                    subst h1; subst h2; subst h3
                    refine ⟨⟨[.var t], rfl⟩, ?_, ?_, ?_, ?_⟩
                    · exact closed_snoc st _ hC (by simp [childIds])
                    · intro k v hv
                      rcases eq_or_ne k n with rfl | hk
                      · rw [hm] at hv; exact absurd hv (by simp)
                      · rwa [Function.update_noteq hk]
                    · intro k v hv
                      rcases eq_or_ne k n with rfl | hk
                      · rw [Function.update_same] at hv
                        simp only [Option.some_inj] at hv
                        subst hv
                        simp
                      · rw [Function.update_noteq hk] at hv
                        have := hR k v hv
                        simp only [List.length_append, List.length_singleton]
                        omega
                    · simp
                | cst t =>
                    simp only [Option.some_inj, Prod.mk.injEq] at h
                    obtain ⟨h1, h2, h3⟩ := h
                    subst h1; subst h2; subst h3
                    refine ⟨⟨[.cst t], rfl⟩, ?_, ?_, ?_, ?_⟩
                    · exact closed_snoc st _ hC (by simp [childIds])
                    · intro k v hv
                      rcases eq_or_ne k n with rfl | hk
                      · rw [hm] at hv; exact absurd hv (by simp)
                      · rwa [Function.update_noteq hk]
                    · intro k v hv
                      rcases eq_or_ne k n with rfl | hk
                      · rw [Function.update_same] at hv
                        simp only [Option.some_inj] at hv
                        subst hv
                        simp
                      · rw [Function.update_noteq hk] at hv
                        have := hR k v hv
                        simp only [List.length_append, List.length_singleton]
                        omega
                    · simp
                | opn ch =>
                    simp only [Option.bind_eq_bind] at h
                    cases hcl : copyNodeList fuel st memo ch with
                    | none => rw [hcl] at h; simp at h
                    | some res =>
                        rw [hcl] at h
                        obtain ⟨st2', memo2', ch2⟩ := res
                        simp only [Option.some_bind, Option.pure_def,
                          Option.some_inj, Prod.mk.injEq] at h
                        obtain ⟨h1, h2, h3⟩ := h
                        subst h1; subst h2; subst h3
                        obtain ⟨⟨Δ, hΔ⟩, hC2, hMp, hMr, hRs⟩ :=
                          ih.2 st memo ch st2' memo2' ch2 hC hR hcl
                        refine ⟨⟨Δ ++ [.opn ch2], by rw [hΔ, List.append_assoc]⟩,
                          ?_, ?_, ?_, ?_⟩
                        · refine closed_snoc st2' _ hC2 ?_
                          intro c hc
                          simp only [childIds] at hc
                          have := hRs c hc
                          simp only [List.length_append, List.length_singleton]
                          omega
                        · intro k v hv
                          have hv2 := hMp k v hv
                          rcases eq_or_ne k n with rfl | hk
                          · rw [hm] at hv; exact absurd hv (by simp)
                          · rwa [Function.update_noteq hk]
                        · intro k v hv
                          rcases eq_or_ne k n with rfl | hk
                          · rw [Function.update_same] at hv
                            simp only [Option.some_inj] at hv
                            subst hv
                            simp
                          · rw [Function.update_noteq hk] at hv
                            have := hMr k v hv
                            simp only [List.length_append, List.length_singleton]
                            omega
                        · simp
                | cbr c t f => simp at h
                | ubr t => simp at h
      refine ⟨hnode, ?_⟩
      intro st memo l
      induction l generalizing st memo with
      | nil =>
          intro st2 memo2 rs hC hR h
          simp only [copyNodeList, Option.some_inj, Prod.mk.injEq] at h
          obtain ⟨h1, h2, h3⟩ := h
          subst h1; subst h2; subst h3
          exact ⟨⟨[], by simp⟩, hC, fun k v hv => hv, hR, by simp⟩
      | cons c cs ihl =>
          intro st2 memo2 rs hC hR h
          simp only [copyNodeList, Option.bind_eq_bind] at h
          cases h1 : copyNode (fuel+1) st memo c with
          | none => rw [h1] at h; simp at h
          | some res1 =>
              rw [h1] at h
              obtain ⟨stA, memoA, c2⟩ := res1
              simp only [Option.some_bind] at h
              cases h2 : copyNodeList (fuel+1) stA memoA cs with
              | none => rw [h2] at h; simp at h
              | some res2 =>
                  rw [h2] at h
                  obtain ⟨stB, memoB, cs2⟩ := res2
                  simp only [Option.some_bind, Option.pure_def, Option.some_inj,
                    Prod.mk.injEq] at h
                  obtain ⟨hh1, hh2, hh3⟩ := h
                  subst hh1; subst hh2; subst hh3
                  obtain ⟨⟨Δ1, hΔ1⟩, hCA, hMpA, hMrA, hcA⟩ :=
                    hnode st memo c stA memoA c2 hC hR h1
                  obtain ⟨⟨Δ2, hΔ2⟩, hCB, hMpB, hMrB, hrsB⟩ :=
                    ihl stA memoA stB memoB cs2 hCA hMrA h2
                  refine ⟨⟨Δ1 ++ Δ2, by rw [hΔ2, hΔ1, List.append_assoc]⟩, hCB,
                    fun k v hv => hMpB k v (hMpA k v hv), hMrB, ?_⟩
                  intro r hr
                  rcases List.mem_cons.mp hr with rfl | hr
                  · have hlen : stA.length ≤ stB.length := by
                      rw [hΔ2]; simp
                    omega
                  · exact hrsB r hr

theorem getRecVars_lt (st : List NDat) (fuel n : Nat) (V : Finset Nat)
    (h : getRecVars st fuel n = some V) : n < st.length := by
  cases fuel with
  | zero => simp [getRecVars] at h
  | succ fuel =>
      simp only [getRecVars] at h
      cases hg : st.get? n with
      | none => rw [hg] at h; simp at h
      | some d => exact ndat_get_lt hg

theorem getRecVarsList_lt (st : List NDat) (fuel : Nat) :
    ∀ l V, getRecVarsList st fuel l = some V → ∀ c ∈ l, c < st.length := by
  intro l
  induction l with
  | nil => intro V _ c hc; simp at hc
  | cons c cs ih =>
      intro V h e he
      cases fuel with
      | zero => simp [getRecVarsList, getRecVars] at h
      | succ fuel =>
          simp only [getRecVarsList, Option.bind_eq_bind] at h
          cases h1 : getRecVars st (fuel+1) c with
          | none => rw [h1] at h; simp at h
          | some v1 =>
              rw [h1] at h
              simp only [Option.some_bind] at h
              cases h2 : getRecVarsList st (fuel+1) cs with
              | none => rw [h2] at h; simp at h
              | some v2 =>
                  rcases List.mem_cons.mp he with rfl | he
                  · exact getRecVars_lt st (fuel+1) e v1 h1
                  · exact ih v2 h2 e he

theorem copyNode_no_new_vars : ∀ fuel : Nat,
    (∀ st memo n V st2 memo2 r,
      ClosedStore st → (∀ k v, memo k = some v → v < st.length) →
      getRecVars st fuel n = some V →
      (∀ v ∈ V, memo v = some v) →
      copyNode fuel st memo n = some (st2, memo2, r) →
      ∀ k t, st.length ≤ k → st2.get? k ≠ some (.var t)) ∧
    (∀ st memo l V st2 memo2 rs,
      ClosedStore st → (∀ k v, memo k = some v → v < st.length) →
      getRecVarsList st fuel l = some V →
      (∀ v ∈ V, memo v = some v) →
      copyNodeList fuel st memo l = some (st2, memo2, rs) →
      ∀ k t, st.length ≤ k → st2.get? k ≠ some (.var t)) := by
  intro fuel
  induction fuel with
  | zero =>
      constructor
      · intro st memo n V st2 memo2 r _ _ hV _ h
        simp [getRecVars] at hV
      · intro st memo l V st2 memo2 rs _ _ hV _ h k t hk
        cases l with
        | nil =>
            simp only [copyNodeList, Option.some_inj, Prod.mk.injEq] at h
            obtain ⟨h1, -, -⟩ := h
            subst h1
            intro hg
            have := ndat_get_lt hg
            omega
        | cons c cs => simp [getRecVarsList, getRecVars] at hV
  | succ fuel ih =>
      have hnode : ∀ st memo n V st2 memo2 r,
          ClosedStore st → (∀ k v, memo k = some v → v < st.length) →
          getRecVars st (fuel+1) n = some V →
          (∀ v ∈ V, memo v = some v) →
          copyNode (fuel+1) st memo n = some (st2, memo2, r) →
          ∀ k t, st.length ≤ k → st2.get? k ≠ some (.var t) := by
        intro st memo n V st2 memo2 r hC hR hV hseed h k t hk
        simp only [copyNode] at h
        simp only [getRecVars] at hV
        cases hm : memo n with
        | some m =>
            rw [hm] at h
            simp only [Option.some_inj, Prod.mk.injEq] at h
            obtain ⟨h1, -, -⟩ := h
            subst h1
            intro hg
            have := ndat_get_lt hg
            omega
        | none =>
            rw [hm] at h
            cases hg : st.get? n with
            | none => rw [hg] at h; simp at h
            | some d =>
                rw [hg] at h
                rw [hg] at hV
                cases d with
                | var t2 =>
                    simp only [Option.some_inj] at hV
                    subst hV
                    have := hseed n (Finset.mem_singleton_self n)
                    rw [hm] at this
                    exact absurd this (by simp)
                | cst t2 =>
                    simp only [Option.some_inj, Prod.mk.injEq] at h
                    obtain ⟨h1, -, -⟩ := h
                    subst h1
                    intro hgk
                    rcases Nat.lt_or_ge k (st ++ [NDat.cst t2]).length with hlt | hge
                    · have hkeq : k = st.length := by
                        simp only [List.length_append, List.length_singleton] at hlt
                        omega
                      subst hkeq
                      rw [List.get?_append_right (le_refl _)] at hgk
                      simp at hgk
                    · rw [List.get?_eq_none.mpr hge] at hgk
                      exact absurd hgk (by simp)
                | opn ch =>
                    simp only [Option.bind_eq_bind] at h
                    cases hcl : copyNodeList fuel st memo ch with
                    | none => rw [hcl] at h; simp at h
                    | some res =>
                        rw [hcl] at h
                        obtain ⟨st2', memo2', ch2⟩ := res
                        simp only [Option.some_bind, Option.pure_def,
                          Option.some_inj, Prod.mk.injEq] at h
                        obtain ⟨h1, -, -⟩ := h
                        subst h1
                        have hnv := ih.2 st memo ch V st2' memo2' ch2 hC hR hV hseed hcl
                        intro hgk
                        rcases Nat.lt_or_ge k st2'.length with hlt | hge
                        · rw [List.get?_append hlt] at hgk
                          exact hnv k t hk hgk
                        · rcases Nat.lt_or_ge k (st2' ++ [NDat.opn ch2]).length
                            with hlt2 | hge2
                          · have hkeq : k = st2'.length := by
                              simp only [List.length_append, List.length_singleton] at hlt2
                              omega
                            subst hkeq
                            rw [List.get?_append_right (le_refl _)] at hgk
                            simp at hgk
                          · rw [List.get?_eq_none.mpr hge2] at hgk
                            exact absurd hgk (by simp)
                | cbr c2 t2 f2 => simp at h
                | ubr t2 => simp at h
      refine ⟨hnode, ?_⟩
      intro st memo l
      induction l generalizing st memo with
      | nil =>
          intro V st2 memo2 rs _ _ hV _ h k t hk
          simp only [copyNodeList, Option.some_inj, Prod.mk.injEq] at h
          obtain ⟨h1, -, -⟩ := h
          subst h1
          intro hg
          have := ndat_get_lt hg
          omega
      | cons c cs ihl =>
          intro V st2 memo2 rs hC hR hV hseed h k t hk
          simp only [getRecVarsList, Option.bind_eq_bind] at hV
          cases hv1 : getRecVars st (fuel+1) c with
          | none => rw [hv1] at hV; simp at hV
          | some v1 =>
              rw [hv1] at hV
              simp only [Option.some_bind] at hV
              cases hv2 : getRecVarsList st (fuel+1) cs with
              | none => rw [hv2] at hV; simp at hV
              | some v2 =>
                  rw [hv2] at hV
                  simp only [Option.some_bind', Option.pure_def, Option.some_inj] at hV
                  subst hV
                  simp only [copyNodeList, Option.bind_eq_bind] at h
                  cases h1 : copyNode (fuel+1) st memo c with
                  | none => rw [h1] at h; simp at h
                  | some res1 =>
                      rw [h1] at h
                      obtain ⟨stA, memoA, c2⟩ := res1
                      simp only [Option.some_bind] at h
                      cases h2 : copyNodeList (fuel+1) stA memoA cs with
                      | none => rw [h2] at h; simp at h
                      | some res2 =>
                          rw [h2] at h
                          obtain ⟨stB, memoB, cs2⟩ := res2
                          simp only [Option.some_bind, Option.pure_def,
                            Option.some_inj, Prod.mk.injEq] at h
                          obtain ⟨hh1, -, -⟩ := h
                          subst hh1
                          obtain ⟨⟨Δ1, hΔ1⟩, hCA, hMpA, hMrA, -⟩ :=
                            (copyNode_frame (fuel+1)).1 st memo c stA memoA c2 hC hR h1
                          have hseed1 : ∀ v ∈ v1, memo v = some v := fun v hv =>
                            hseed v (Finset.mem_union_left _ hv)
                          have hnvA := hnode st memo c v1 stA memoA c2 hC hR hv1 hseed1 h1
                          -- second child list over the extended store
                          have hcs_lt : ∀ e ∈ cs, e < st.length :=
                            getRecVarsList_lt st (fuel+1) cs v2 hv2
                          have hv2A : getRecVarsList stA (fuel+1) cs = some v2 := by
                            rw [hΔ1]
                            rw [(getRecVars_extend st Δ1 hC (fuel+1)).2 cs hcs_lt]
                            exact hv2
                          have hseed2 : ∀ v ∈ v2, memoA v = some v := fun v hv =>
                            hMpA v v (hseed v (Finset.mem_union_right _ hv))
                          have hnvB := ihl stA memoA v2 stB memoB cs2 hCA hMrA hv2A hseed2 h2
                          intro hgk
                          rcases Nat.lt_or_ge k stA.length with hlt | hge
                          · -- k in the region allocated by the first child
                            obtain ⟨Δ2, hΔ2⟩ :=
                              ((copyNode_frame (fuel+1)).2 stA memoA cs stB memoB cs2
                                hCA hMrA h2).1
                            rw [hΔ2, List.get?_append hlt] at hgk
                            exact hnvA k t hk hgk
                          · exact hnvB k t hge hgk

theorem copyNode_fresh_root (fuel : Nat) (st : List NDat) (memo : Nat → Option Nat)
    (n : Nat) (st2 : List NDat) (memo2 : Nat → Option Nat) (r : Nat)
    (hC : ClosedStore st) (hR : ∀ k v, memo k = some v → v < st.length)
    (hm : memo n = none)
    (h : copyNode fuel st memo n = some (st2, memo2, r)) : st.length ≤ r := by
  cases fuel with
  | zero => simp [copyNode] at h
  | succ fuel =>
      simp only [copyNode, hm] at h
      cases hg : st.get? n with
      | none => rw [hg] at h; simp at h
      | some d =>
          rw [hg] at h
          cases d with
          | var t =>
              simp only [Option.some_inj, Prod.mk.injEq] at h
              obtain ⟨-, -, h3⟩ := h
              omega
          | cst t =>
              simp only [Option.some_inj, Prod.mk.injEq] at h
              obtain ⟨-, -, h3⟩ := h
              omega
          | opn ch =>
              simp only [Option.bind_eq_bind] at h
              cases hcl : copyNodeList fuel st memo ch with
              | none => rw [hcl] at h; simp at h
              | some res =>
                  rw [hcl] at h
                  obtain ⟨st2', memo2', ch2⟩ := res
                  simp only [Option.some_bind, Option.pure_def, Option.some_inj,
                    Prod.mk.injEq] at h
                  obtain ⟨-, -, h3⟩ := h
                  obtain ⟨⟨Δ, hΔ⟩, -, -, -, -⟩ :=
                    (copyNode_frame fuel).2 st memo ch st2' memo2' ch2 hC hR hcl
                  have : st.length ≤ st2'.length := by rw [hΔ]; simp
                  omega
          | cbr c2 t2 f2 => simp at h
          | ubr t2 => simp at h

theorem copy_up_to_variables_spec (fuel : Nat) (st : List NDat) (n : Nat)
    (st2 : List NDat) (r : Nat) (hC : ClosedStore st)
    (h : copy_up_to_variables fuel st n = some (st2, r)) :
    (∃ Δ, st2 = st ++ Δ) ∧ ClosedStore st2 ∧
    (∀ k t, st.length ≤ k → st2.get? k ≠ some (.var t)) ∧
    ((∀ t, st.get? n ≠ some (.var t)) → st.length ≤ r) := by
  simp only [copy_up_to_variables, Option.bind_eq_bind] at h
  cases hV : getRecVars st fuel n with
  | none => rw [hV] at h; simp at h
  | some V =>
      rw [hV] at h
      simp only [Option.some_bind] at h
      set memo : Nat → Option Nat := fun k => if k ∈ V then some k else none with hmemo
      cases hcp : copyNode fuel st memo n with
      | none => rw [hcp] at h; simp at h
      | some res =>
          rw [hcp] at h
          obtain ⟨stX, memoX, rX⟩ := res
          simp only [Option.some_bind, Option.pure_def, Option.some_inj,
            Prod.mk.injEq] at h
          obtain ⟨h1, h2⟩ := h
          subst h1
          subst h2
          have hR : ∀ k v, memo k = some v → v < st.length := by
            intro k v hv
            by_cases hk : k ∈ V
            · simp only [hmemo, if_pos hk, Option.some_inj] at hv
              subst hv
              obtain ⟨t, ht⟩ := (getRecVars_vars fuel).1 st n V hV k hk
              exact ndat_get_lt ht
            · simp only [hmemo, if_neg hk] at hv
              exact absurd hv (by simp)
          have hseed : ∀ v ∈ V, memo v = some v := by
            intro v hv
            simp only [hmemo, if_pos hv]
          obtain ⟨hext, hC2, -, -, -⟩ :=
            (copyNode_frame fuel).1 st memo n stX memoX rX hC hR hcp
          refine ⟨hext, hC2,
            (copyNode_no_new_vars fuel).1 st memo n V stX memoX rX hC hR hV hseed hcp,
            ?_⟩
          intro hnv
          have hm : memo n = none := by
            by_cases hn : n ∈ V
            · obtain ⟨t, ht⟩ := (getRecVars_vars fuel).1 st n V hV n hn
              exact absurd ht (hnv t)
            · simp only [hmemo, if_neg hn]
          exact copyNode_fresh_root fuel st memo n stX memoX rX hC hR hm hcp

/-- Helpers for the three node-kind cases. -/
def NDat.isVar : NDat → Bool
  | .var _ => true
  | _ => false

def NDat.isCst : NDat → Bool
  | .cst _ => true
  | _ => false

/-- C7: the node-to-block conflict policy.  A `Variable` is left shared and
never duplicated (the store is unchanged and the node keeps its identity); a
`Constant` is cloned, with the clone (a fresh id) assigned to the new block
while the original entry is untouched; any other node is deep-copied with a
fresh root, the original entries all preserved, and no new `Variable` entry
is ever allocated — every variable inside the copy is one of the original
shared variable objects. -/
theorem conflictResolve_policy (fuel : Nat) (st : List NDat) (n : Nat)
    (st2 : List NDat) (n2 : Nat) (hC : ClosedStore st)
    (h : conflictResolve fuel st n = some (st2, n2)) :
    (∀ t, st.get? n = some (.var t) → st2 = st ∧ n2 = n) ∧
    (∀ t, st.get? n = some (.cst t) → st2 = st ++ [.cst t] ∧ n2 = st.length) ∧
    (∀ d, st.get? n = some d → d.isVar = false → d.isCst = false →
      (∃ Δ, st2 = st ++ Δ) ∧ st.length ≤ n2 ∧
      (∀ k, k < st.length → st2.get? k = st.get? k) ∧
      (∀ k t, st.length ≤ k → st2.get? k ≠ some (.var t))) := by
  refine ⟨?_, ?_, ?_⟩
  · intro t hg
    rw [conflictResolve, hg] at h
    simp only [Option.some_inj, Prod.mk.injEq] at h
    exact ⟨h.1.symm, h.2.symm⟩
  · intro t hg
    rw [conflictResolve, hg] at h
    simp only [Option.some_inj, Prod.mk.injEq] at h
    exact ⟨h.1.symm, h.2.symm⟩
  · intro d hg hv hc
    rw [conflictResolve, hg] at h
    have hcu : copy_up_to_variables fuel st n = some (st2, n2) := by
      cases d with
      | var t => simp [NDat.isVar] at hv
      | cst t => simp [NDat.isCst] at hc
      | opn ch => exact h
      | cbr c t f => exact h
      | ubr t => exact h
    obtain ⟨⟨Δ, hΔ⟩, hC2, hnv, hfresh⟩ :=
      copy_up_to_variables_spec fuel st n st2 n2 hC hcu
    refine ⟨⟨Δ, hΔ⟩, ?_, ?_, hnv⟩
    · refine hfresh ?_
      intro t hgt
      rw [hg] at hgt
      simp only [Option.some_inj] at hgt
      subst hgt
      simp [NDat.isVar] at hv
    · intro k hk
      rw [hΔ, List.get?_append hk]

theorem conflictResolve_frame (fuel : Nat) (st : List NDat) (n : Nat)
    (st2 : List NDat) (n2 : Nat) (hC : ClosedStore st)
    (h : conflictResolve fuel st n = some (st2, n2)) :
    (∃ Δ, st2 = st ++ Δ) ∧ ClosedStore st2 := by
  rw [conflictResolve] at h
  cases hg : st.get? n with
  | none => rw [hg] at h; simp at h
  | some d =>
      rw [hg] at h
      cases d with
      | var t =>
          simp only [Option.some_inj, Prod.mk.injEq] at h
          obtain ⟨h1, -⟩ := h
          subst h1
          exact ⟨⟨[], by simp⟩, hC⟩
      | cst t =>
          simp only [Option.some_inj, Prod.mk.injEq] at h
          obtain ⟨h1, -⟩ := h
          subst h1
          exact ⟨⟨[.cst t], rfl⟩, closed_snoc st _ hC (by simp [childIds])⟩
      | opn ch =>
          obtain ⟨he, hc, -, -⟩ := copy_up_to_variables_spec fuel st n st2 n2 hC h
          exact ⟨he, hc⟩
      | cbr c t f =>
          obtain ⟨he, hc, -, -⟩ := copy_up_to_variables_spec fuel st n st2 n2 hC h
          exact ⟨he, hc⟩
      | ubr t =>
          obtain ⟨he, hc, -, -⟩ := copy_up_to_variables_spec fuel st n st2 n2 hC h
          exact ⟨he, hc⟩

theorem procBB_frame : ∀ fuel st bmap bb work processed st2 bmap2,
    ClosedStore st →
    procBB fuel st bmap bb work processed = some (st2, bmap2) →
    (∃ Δ, st2 = st ++ Δ) ∧ ClosedStore st2 := by
  intro fuel
  induction fuel with
  | zero => intro st bmap bb work processed st2 bmap2 _ h; simp [procBB] at h
  | succ fuel ih =>
      intro st bmap bb work processed st2 bmap2 hC h
      cases work with
      | nil =>
          simp only [procBB, Option.some_inj, Prod.mk.injEq] at h
          obtain ⟨h1, -⟩ := h
          subst h1
          exact ⟨⟨[], by simp⟩, hC⟩
      | cons n ws =>
          simp only [procBB] at h
          by_cases hp : n ∈ processed
          · rw [if_pos hp] at h
            exact ih st bmap bb ws processed st2 bmap2 hC h
          · rw [if_neg hp] at h
            set conflict :=
              match bmapLookup bmap n with
              | some b => decide (b ≠ bb)
              | none => false with hcf
            cases hcfv : conflict with
            | true =>
                rw [hcfv] at h
                simp only [if_pos] at h
                cases hcr : conflictResolve fuel st n with
                | none => rw [hcr] at h; simp at h
                | some pr =>
                    rw [hcr] at h
                    obtain ⟨stA, n2⟩ := pr
                    dsimp only at h
                    cases hg : stA.get? n2 with
                    | none => rw [hg] at h; simp at h
                    | some d =>
                        rw [hg] at h
                        obtain ⟨⟨Δ1, hΔ1⟩, hCA⟩ :=
                          conflictResolve_frame fuel st n stA n2 hC hcr
                        obtain ⟨⟨Δ2, hΔ2⟩, hC2⟩ :=
                          ih stA _ bb _ _ st2 bmap2 hCA h
                        exact ⟨⟨Δ1 ++ Δ2, by rw [hΔ2, hΔ1, List.append_assoc]⟩, hC2⟩
            | false =>
                rw [hcfv] at h
                simp only [Bool.false_eq_true, reduceIte] at h
                cases hg : st.get? n with
                | none => rw [hg] at h; simp at h
                | some d =>
                    rw [hg] at h
                    exact ih st _ bb _ _ st2 bmap2 hC h

theorem sortGo_frame : ∀ bbs fuel st bmap idx st2 bmap2,
    ClosedStore st →
    sortGo fuel st bmap bbs idx = some (st2, bmap2) →
    (∃ Δ, st2 = st ++ Δ) ∧ ClosedStore st2 := by
  intro bbs
  induction bbs with
  | nil =>
      intro fuel st bmap idx st2 bmap2 hC h
      simp only [sortGo, Option.some_inj, Prod.mk.injEq] at h
      obtain ⟨h1, -⟩ := h
      subst h1
      exact ⟨⟨[], by simp⟩, hC⟩
  | cons content rest ih =>
      intro fuel st bmap idx st2 bmap2 hC h
      simp only [sortGo, Option.bind_eq_bind] at h
      cases hp : procBB fuel st bmap idx content ∅ with
      | none => rw [hp] at h; simp at h
      | some pr =>
          rw [hp] at h
          obtain ⟨stA, bmapA⟩ := pr
          simp only [Option.some_bind] at h
          obtain ⟨⟨Δ1, hΔ1⟩, hCA⟩ :=
            procBB_frame fuel st bmap idx content ∅ stA bmapA hC hp
          obtain ⟨⟨Δ2, hΔ2⟩, hC2⟩ := ih fuel stA bmapA (idx+1) st2 bmap2 hCA h
          exact ⟨⟨Δ1 ++ Δ2, by rw [hΔ2, hΔ1, List.append_assoc]⟩, hC2⟩

/-- C9: `sort_node_by_bb` never mutates any existing node: every original
store entry — in particular every operand link — is unchanged in the result,
the store only grows by clone allocations at fresh ids, and no original
node's operand list can reference a clone (all original operand ids stay
below the original store size), so the nodes reachable from the blocks'
instruction lists are exactly the original objects.  The block instruction
lists themselves are read-only inputs of the embedding, matching the
source, which never calls a mutator on `bb`; the clones appear only through
the returned `bb_map`. -/
theorem sort_node_by_bb_frame (fuel : Nat) (st : List NDat) (bbs : List (List Nat))
    (st2 : List NDat) (bmap2 : BBMap) (hC : ClosedStore st)
    (h : sort_node_by_bb fuel st bbs = some (st2, bmap2)) :
    (∀ k, k < st.length → st2.get? k = st.get? k) ∧
    (∃ Δ, st2 = st ++ Δ) ∧
    (∀ k d, k < st.length → st2.get? k = some d → ∀ c ∈ childIds d, c < st.length) := by
  obtain ⟨⟨Δ, hΔ⟩, -⟩ := sortGo_frame bbs fuel st [] 0 st2 bmap2 hC h
  have hpres : ∀ k, k < st.length → st2.get? k = st.get? k := by
    intro k hk
    rw [hΔ, List.get?_append hk]
  refine ⟨hpres, ⟨Δ, hΔ⟩, ?_⟩
  intro k d hk hg c hc
  rw [hpres k hk] at hg
  exact hC d (ndat_get_mem hg) c hc

theorem tSt_resolve :
    conflictResolve 10 tSt 2 = some (tSt ++ [NDat.cst 7, NDat.opn [0, 3]], 4) := by
  simp [conflictResolve, copy_up_to_variables, getRecVars, getRecVarsList, copyNode,
    copyNodeList, tSt, Function.update]

/-- Witness for `conflictResolve_policy`: resolving the shared node
`opn [var 0, cst 1]` yields a fresh root (id 4 ≥ 3). -/
theorem conflictResolve_policy_witness : tSt.length ≤ 4 :=
  ((conflictResolve_policy 10 tSt 2 (tSt ++ [.cst 7, .opn [0, 3]]) 4 (by decide)
      tSt_resolve).2.2 (.opn [0, 1]) (by decide) (by decide) (by decide)).2.1

theorem tSt_sorted :
    sort_node_by_bb 20 tSt [[2], [2]] =
      some (tSt ++ [NDat.cst 7, NDat.opn [0, 3]],
        [(2, 0), (0, 1), (1, 0), (4, 1), (3, 1)]) := by
  simp [sort_node_by_bb, sortGo, procBB, conflictResolve, copy_up_to_variables,
    getRecVars, getRecVarsList, copyNode, copyNodeList, tSt, Function.update,
    bmapLookup, bmapSet, pushIds]

/-- Witness for `sort_node_by_bb_frame`: after sorting two blocks sharing
node 2, original entry 1 is unchanged. -/
theorem sort_node_by_bb_frame_witness :
    (tSt ++ [NDat.cst 7, NDat.opn [0, 3]]).get? 1 = tSt.get? 1 :=
  (sort_node_by_bb_frame 20 tSt [[2], [2]] (tSt ++ [NDat.cst 7, NDat.opn [0, 3]])
      [(2, 0), (0, 1), (1, 0), (4, 1), (3, 1)] (by decide) tSt_sorted).1 1 (by decide)
